import Mathlib

/-!
Verification of the request-dispatch, validation, caching and
platform-normalization layer of the uroman MCP server
(`src/mcp-server.ts`: `UromanMCPServer`, `UromanService`, and the
Cloudflare platform adapter).

The TypeScript code is shallowly embedded:
* JS strings are Lean `String`s; the JS `.length` property (UTF-16 code
  units) is modelled by `jsLength`;
* the JS `Map` (insertion-ordered) is modelled by an association list
  together with `mapGet` / `mapSet` / `mapDelete` preserving JS `Map`
  semantics (set-in-place on existing keys, insertion order retained);
* `async` control flow is sequentialized; the one genuinely concurrent
  piece of code (`UromanService.getUroman`) is modelled separately as a
  small event system whose atomic steps are the synchronous segments of
  the JS run-to-completion event loop;
* the external romanization engine (`uroman.Uroman.romanize_string`) is an
  opaque collaborator and is kept as a function parameter `eng`;
* the Unicode `\p{L}` letter test used by script analysis is kept as a
  function parameter `isLetter` (the full Unicode table is not embedded);
* wall-clock timing fields (`processingTime`) and logging are not modelled.
-/

namespace UromanMCP

/-- JS `String.prototype.length`: the number of UTF-16 code units.
Characters above U+FFFF are surrogate pairs and count as two units. -/
def jsLength (s : String) : Nat :=
  (s.data.map (fun c => if c.val ≥ 0x10000 then 2 else 1)).sum

/-- JS `a || b` on an optional string: the default is used when the string
is absent (`undefined`) or falsy (the empty string). -/
def jsOrElse (o : Option String) (d : String) : String :=
  match o with
  | some s => if s = "" then d else s
  | none => d

/-! ## JS `Map<string, string>` model (insertion-ordered association list) -/

/-- `Map.prototype.get`. -/
def mapGet : List (String × String) → String → Option String
  | [], _ => none
  | (k', v) :: rest, k => if k' = k then some v else mapGet rest k

/-- `Map.prototype.set`: replaces the value in place when the key is
present (keeping its position in insertion order), appends otherwise. -/
def mapSet : List (String × String) → String → String → List (String × String)
  | [], k, v => [(k, v)]
  | (k', v') :: rest, k, v =>
    if k' = k then (k, v) :: rest else (k', v') :: mapSet rest k v

/-- `Map.prototype.delete`: removes the entry with the given key. -/
def mapDelete : List (String × String) → String → List (String × String)
  | [], _ => []
  | (k', v') :: rest, k => if k' = k then rest else (k', v') :: mapDelete rest k

/-! ## Configuration (`UromanConfig` and the constructor defaults) -/

/-- `UromanConfig` from `src/types`: every field optional, mirroring the
TS partial-config object. -/
structure UromanConfig where
  cacheSize : Option Nat := none
  maxTextLength : Option Nat := none
  maxBatchSize : Option Nat := none
  rateLimitRpm : Option Nat := none
  debug : Option Bool := none
deriving DecidableEq, Repr

/-- The fully-defaulted configuration a `UromanService` ends up holding. -/
structure EffectiveConfig where
  cacheSize : Nat
  maxTextLength : Nat
  maxBatchSize : Nat
  rateLimitRpm : Nat
  debug : Bool
deriving DecidableEq, Repr

/-- The `UromanService` private constructor: `{ ...defaults, ...config }`
(`mcp-server.ts` lines 427-438). A service is identified with the
configuration it holds; no other constructor state matters here. -/
def mkService (c : UromanConfig) : EffectiveConfig :=
  { cacheSize := c.cacheSize.getD 32768
    maxTextLength := c.maxTextLength.getD 10000
    maxBatchSize := c.maxBatchSize.getD 100
    rateLimitRpm := c.rateLimitRpm.getD 100
    debug := c.debug.getD false }

/-- `UromanService.getInstance(config?)` (lines 440-445): creates the
singleton on first call, otherwise returns the stored instance; the
`config` argument of any later call is not consulted. The process-wide
`UromanService.instance` static field is the explicit `inst` state. -/
def getInstance (inst : Option EffectiveConfig) (config : Option UromanConfig) :
    EffectiveConfig × Option EffectiveConfig :=
  match inst with
  | some s => (s, some s)
  | none =>
    let s := mkService (config.getD {})
    (s, some s)

/-- A sequence of `getInstance` calls in one process, returning what each
call observed. -/
def goInstances : Option EffectiveConfig → List (Option UromanConfig) → List EffectiveConfig
  | _, [] => []
  | inst, c :: rest =>
    let (s, inst') := getInstance inst c
    s :: goInstances inst' rest

/-- The configuration the Cloudflare platform adapter passes to
`UromanService.getInstance` (`CloudflareAdapter.getUromanService`,
adapter source lines 63-81): its parsed `UROMAN_CACHE_SIZE` ceiling plus
fixed text/batch limits. -/
def cloudflareServiceConfig (cacheSizeEnv : Nat) : UromanConfig :=
  { cacheSize := some cacheSizeEnv
    maxTextLength := some 10000
    maxBatchSize := some 100 }

/-! ## Errors and formats -/

/-- `ERROR_CODES` from `src/types`. -/
inductive ErrCode where
  | INVALID_INPUT
  | TEXT_TOO_LONG
  | INVALID_LANGUAGE_CODE
  | ROMANIZATION_FAILED
  | UNSUPPORTED_SCRIPT
  | INTERNAL_ERROR
deriving DecidableEq, Repr

/-- `MCPError` (code + message; the `details` payload is not modelled). -/
structure MCPErr where
  code : ErrCode
  message : String
deriving DecidableEq, Repr

/-- The `format` parameter of `romanize` (`'str' | 'edges'`). -/
inductive RomFormat where
  | str
  | edges
deriving DecidableEq, Repr

/-- A runtime JS value passed as `params.text`: the TS type says `string`
but `validateInput` guards against non-string values at runtime. -/
inductive JSVal where
  | jstr (s : String)
  | jnonstring
deriving DecidableEq, Repr

/-- What the engine's `romanize_string` returns: a string (RomFormat.STR)
or an edge array (RomFormat.EDGES, payload kept opaque). -/
inductive EngineOut where
  | outStr (s : String)
  | outEdges (blob : String)
deriving DecidableEq, Repr

/-- The opaque external engine: text, optional language hint, requested
format; may fail (a thrown JS exception is an `Except.error`). -/
def Engine : Type := String → Option String → RomFormat → Except String EngineOut

/-! ## Validation layer (`validateInput`, `validateLanguageCode`) -/

/-- `UromanService.validateInput` (lines 501-516): `INVALID_INPUT` when the
text is not a string, `TEXT_TOO_LONG` when `text.length` is strictly
greater than `config.maxTextLength`. -/
def validateInput (cfg : EffectiveConfig) (text : JSVal) : Except MCPErr String :=
  match text with
  | .jnonstring => .error ⟨.INVALID_INPUT, "Text must be a string"⟩
  | .jstr s =>
    if jsLength s > cfg.maxTextLength then
      .error ⟨.TEXT_TOO_LONG, "Text exceeds maximum length"⟩
    else
      .ok s

/-- The regex `^[a-z]{3}$`: exactly three characters, each a lowercase
Latin letter. -/
def matchesIso3 (l : String) : Bool :=
  l.data.length = 3 && l.data.all (fun c => 'a' ≤ c && c ≤ 'z')

/-- `UromanService.validateLanguageCode` (lines 518-526): the guard is
`language && !/^[a-z]{3}$/.test(language)`, so an absent code and the
*empty* code (falsy in JS) are both let through. -/
def validateLanguageCode (language : Option String) : Except MCPErr Unit :=
  match language with
  | none => .ok ()
  | some l =>
    if l ≠ "" ∧ ¬ matchesIso3 l then
      .error ⟨.INVALID_LANGUAGE_CODE, "Invalid language code"⟩
    else
      .ok ()

/-- `UromanService.generateCacheKey` (lines 497-499):
`` `${text}:${language || 'auto'}:${format || 'str'}` ``. -/
def generateCacheKey (text : String) (language : Option String)
    (format : Option String) : String :=
  text ++ ":" ++ jsOrElse language "auto" ++ ":" ++ jsOrElse format "str"

/-- `UromanService.addToCache` (lines 793-802): when the cache has reached
capacity, the first-inserted key is deleted before the `set` — guarded by
the truthiness test `if (firstKey)`, under which an absent first key
(empty cache) and an empty-string first key are both skipped. -/
def addToCache (cfg : EffectiveConfig) (cache : List (String × String))
    (k v : String) : List (String × String) :=
  let cache' :=
    if cache.length ≥ cfg.cacheSize then
      match cache with
      | [] => cache
      | (k0, _) :: _ => if k0 = "" then cache else mapDelete cache k0
    else cache
  mapSet cache' k v

/-! ## `romanize` -/

/-- The mutable service state `romanize` touches: the result cache plus an
observability counter of physical engine invocations (each call of
`uroman.romanize_string`). -/
structure RomState where
  cache : List (String × String) := []
  engineCalls : Nat := 0
deriving DecidableEq, Repr

/-- What `romanize` resolves with: a string (plain mode) or an edge array. -/
inductive RomOut where
  | textOut (s : String)
  | edgesOut (blob : String)
deriving DecidableEq, Repr

/-- `UromanService.romanize` (lines 528-584). Order of operations:
validate text, validate language code, cache lookup (plain mode only,
with the JS truthiness test `if (cached)` treating a cached empty string
as a miss), engine invocation, caching of string-typed results. Engine
exceptions become `ROMANIZATION_FAILED`. Engine readiness (`getUroman`)
is modelled separately by `InitState` below. -/
def romanize (eng : Engine) (cfg : EffectiveConfig) (text : JSVal)
    (language : Option String) (format : Option RomFormat) (st : RomState) :
    Except MCPErr RomOut × RomState :=
  match validateInput cfg text with
  | .error e => (.error e, st)
  | .ok s =>
    match validateLanguageCode language with
    | .error e => (.error e, st)
    | .ok _ =>
      -- `if (params.format === 'str' || !params.format)`: everything but
      -- an explicit 'edges' request is the plain mode
      let key := generateCacheKey s language (some "str")
      let hit : Option String :=
        match format with
        | some .edges => none
        | _ =>
          match mapGet st.cache key with
          | some v => if v = "" then none else some v
          | none => none
      match hit with
      | some v => (.ok (.textOut v), st)
      | none =>
        let fmt := match format with
          | some .edges => RomFormat.edges
          | _ => RomFormat.str
        match eng s language fmt with
        | .error _ =>
          (.error ⟨.ROMANIZATION_FAILED, "Failed to romanize text"⟩,
           { st with engineCalls := st.engineCalls + 1 })
        | .ok out =>
          let st' := { st with engineCalls := st.engineCalls + 1 }
          match out with
          | .outStr v =>
            (.ok (.textOut v), { st' with cache := addToCache cfg st'.cache key v })
          | .outEdges b => (.ok (.edgesOut b), st')

/-! ## `romanizeBatch` -/

/-- One element of `BatchResult.results`. -/
structure RomanizationResult where
  index : Nat
  original : String
  romanized : String
  success : Bool
  error : Option String := none
deriving DecidableEq, Repr

/-- `BatchResult.stats` (the wall-clock `processingTime` is not modelled). -/
structure BatchStats where
  total : Nat
  successful : Nat
  failed : Nat
deriving DecidableEq, Repr

/-- `BatchResult`. -/
structure BatchResult where
  results : List RomanizationResult
  stats : BatchStats
deriving DecidableEq, Repr

/-- The per-item loop of `romanizeBatch` (lines 607-651): each item goes
through the single-item `romanize` flow with `format: 'str'`; a failure is
caught, recorded with the item's own text as fallback, and the loop
continues. Returns (results, successful, failed, state). The periodic
`setTimeout(0)` yield is a scheduling courtesy with no effect on results
and is not modelled. -/
def batchLoop (eng : Engine) (cfg : EffectiveConfig) (itemLang : Option String) :
    List String → Nat → RomState → List RomanizationResult × Nat × Nat × RomState
  | [], _, st => ([], 0, 0, st)
  | t :: rest, index, st =>
    let (r, st') := romanize eng cfg (.jstr t) itemLang (some .str) st
    match r with
    | .ok out =>
      -- `await this.romanize(...) as string`: an edge payload would be
      -- passed through the unchecked cast unchanged.
      let v := match out with
        | .textOut s => s
        | .edgesOut b => b
      let (res, succ, fail, stFin) := batchLoop eng cfg itemLang rest (index + 1) st'
      (⟨index, t, v, true, none⟩ :: res, succ + 1, fail, stFin)
    | .error e =>
      let (res, succ, fail, stFin) := batchLoop eng cfg itemLang rest (index + 1) st'
      (⟨index, t, t, false, some e.message⟩ :: res, succ, fail + 1, stFin)

/-- The `if (params.language) { romanizeParams.language = ... }` truthiness
guard in the batch loop (lines 618-620): an empty-string language is falsy
and is not forwarded to the per-item call. -/
def batchItemLang (language : Option String) : Option String :=
  match language with
  | some l => if l = "" then none else some l
  | none => none

/-- `UromanService.romanizeBatch` (lines 586-677): batch-size check,
language-code check, then the per-item loop. -/
def romanizeBatch (eng : Engine) (cfg : EffectiveConfig) (texts : List String)
    (language : Option String) (st : RomState) :
    Except MCPErr BatchResult × RomState :=
  if texts.length > cfg.maxBatchSize then
    (.error ⟨.INVALID_INPUT, "Batch size exceeds maximum"⟩, st)
  else
    match validateLanguageCode language with
    | .error e => (.error e, st)
    | .ok _ =>
      let (res, succ, fail, stFin) :=
        batchLoop eng cfg (batchItemLang language) texts 0 st
      (.ok ⟨res, ⟨texts.length, succ, fail⟩⟩, stFin)

/-! ## Script classifier and `detectScript` -/

/-- One row of the `scriptRanges` table in `analyzeScripts`. -/
structure ScriptRange where
  name : String
  code : String
  lo : Nat
  hi : Nat
deriving DecidableEq, Repr

/-- The `scriptRanges` table (lines 724-735), in source order. -/
def scriptRanges : List ScriptRange :=
  [⟨"Latin", "Latn", 0x0000, 0x024F⟩,
   ⟨"Cyrillic", "Cyrl", 0x0400, 0x04FF⟩,
   ⟨"Arabic", "Arab", 0x0600, 0x06FF⟩,
   ⟨"Devanagari", "Deva", 0x0900, 0x097F⟩,
   ⟨"Han", "Hani", 0x4E00, 0x9FFF⟩,
   ⟨"Hiragana", "Hira", 0x3040, 0x309F⟩,
   ⟨"Katakana", "Kana", 0x30A0, 0x30FF⟩,
   ⟨"Hangul", "Hang", 0xAC00, 0xD7AF⟩,
   ⟨"Thai", "Thai", 0x0E00, 0x0E7F⟩,
   ⟨"Hebrew", "Hebr", 0x0590, 0x05FF⟩]

/-- The inner range scan of `analyzeScripts` (lines 742-748): first
matching range wins (`break`). -/
def matchScript (cp : Nat) : Option String :=
  (scriptRanges.find? (fun r => decide (r.lo ≤ cp ∧ cp ≤ r.hi))).map (fun r => r.name)

/-- `scriptCounts.set(name, (scriptCounts.get(name) || 0) + 1)` on the
insertion-ordered counts map. -/
def bump : List (String × Nat) → String → List (String × Nat)
  | [], n => [(n, 1)]
  | (k, c) :: rest, n =>
    if k = n then (k, c + 1) :: rest else (k, c) :: bump rest n

/-- The character loop of `analyzeScripts` (lines 737-753): per code point,
`if (!codePoint) continue` (so U+0000 is skipped), then the range scan,
then the `\p{L}` fallback bucket `Other`. `isLetter` abstracts `/\p{L}/u`. -/
def scriptCountsOf (isLetter : Char → Bool) (text : String) : List (String × Nat) :=
  text.data.foldl
    (fun m c =>
      let cp := c.toNat
      if cp = 0 then m
      else
        match matchScript cp with
        | some nm => bump m nm
        | none => if isLetter c then bump m "Other" else m)
    []

/-- One element of `ScriptDetectionResult.scripts`. -/
structure ScriptEntry where
  name : String
  code : String
  percentage : Nat
  characterCount : Nat
deriving DecidableEq, Repr

/-- `Math.round((count / totalChars) * 100)` for `count ≤ totalChars`,
`totalChars > 0`: round-half-up of the exact rational, i.e.
`⌊(100 * count / total) + 1/2⌋`. (JS computes this in binary floating
point; the model uses the exact rational value.) -/
def jsRoundPct (count total : Nat) : Nat :=
  (200 * count + total) / (2 * total)

/-- `totalChars` of `analyzeScripts` (line 755): the number of classified
characters — the sum of the counts map's values, which excludes every
unclassified character. -/
def totalClassified (isLetter : Char → Bool) (text : String) : Nat :=
  ((scriptCountsOf isLetter text).map (fun p => p.2)).sum

/-- The unsorted entry list built by the `.map` in `analyzeScripts`
(lines 757-763), in encounter order of the counts map. -/
def rawEntries (isLetter : Char → Bool) (text : String) : List ScriptEntry :=
  (scriptCountsOf isLetter text).map (fun p =>
    { name := p.1
      code := ((scriptRanges.find? (fun r => r.name = p.1)).map
        (fun r => r.code)).getD "Zyyy"
      percentage := jsRoundPct p.2 (totalClassified isLetter text)
      characterCount := p.2 })

/-- Stable insertion of an entry into a descending-by-`characterCount`
list: the entry goes before the first element whose count is not larger,
so (processing the input front-to-back) earlier-encountered entries stay
ahead of later ones with an equal count. -/
def insertDesc (x : ScriptEntry) : List ScriptEntry → List ScriptEntry
  | [] => [x]
  | y :: ys =>
    if y.characterCount ≤ x.characterCount then x :: y :: ys
    else y :: insertDesc x ys

/-- `.sort((a, b) => b.characterCount - a.characterCount)` — a stable
descending sort, as required of `Array.prototype.sort` by ES2019. -/
def stableSortDesc : List ScriptEntry → List ScriptEntry
  | [] => []
  | x :: xs => insertDesc x (stableSortDesc xs)

/-- `UromanService.analyzeScripts` (lines 722-765). -/
def analyzeScripts (isLetter : Char → Bool) (text : String) : List ScriptEntry :=
  stableSortDesc (rawEntries isLetter text)

/-- `UromanService.getCharScript` (lines 775-791): same ranges in the same
order, with `if (!codePoint) return 'Unknown'` for U+0000. -/
def getCharScript (c : Char) : String :=
  if c.toNat = 0 then "Unknown" else (matchScript c.toNat).getD "Other"

/-- `UromanService.getCharacterDetails` (lines 767-773), capped at the
first 100 characters. (The JS `split('')` splits into UTF-16 units; the
model iterates code points, which agrees on BMP text.) -/
def getCharacterDetails (text : String) : List (Char × String) :=
  (text.data.take 100).map (fun c => (c, getCharScript c))

/-- `ScriptDetectionResult`. -/
structure ScriptDetectionResult where
  scripts : List ScriptEntry
  primaryScript : String
  mixedScript : Bool
  details : Option (List (Char × String)) := none
deriving DecidableEq, Repr

/-- `UromanService.detectScript` (lines 679-720): validate, analyze,
`Unknown/Zyyy/100` fallback when no script was observed (that early
return ignores `detailed`), otherwise `primaryScript = scripts[0]?.name
|| 'Unknown'` and `mixedScript = scripts.length > 1`. -/
def detectScript (isLetter : Char → Bool) (cfg : EffectiveConfig)
    (text : JSVal) (detailed : Bool) : Except MCPErr ScriptDetectionResult :=
  match validateInput cfg text with
  | .error e => .error e
  | .ok s =>
    match analyzeScripts isLetter s with
    | [] =>
      .ok { scripts := [⟨"Unknown", "Zyyy", 100, jsLength s⟩]
            primaryScript := "Unknown"
            mixedScript := false }
    | e0 :: tl =>
      .ok { scripts := e0 :: tl
            primaryScript := if e0.name = "" then "Unknown" else e0.name
            mixedScript := decide (1 < (e0 :: tl).length)
            details := if detailed then some (getCharacterDetails s) else none }

/-! ## Transformation Client initialization (`getUroman` / `loadUroman`)

`UromanService.getUroman` (lines 481-495) runs on a single-threaded
run-to-completion event loop, so each of its synchronous segments is
atomic.  The model is an event system over the private fields
`uromanInstance` (`inst`) and `initPromise` (`prom`):

* `InitEv.enter` — the synchronous prefix of one logical `getUroman`
  call: return the instance if set (line 482-484); return the pending
  promise if set (line 486-488); otherwise assign
  `this.initPromise = this.loadUroman()` — which *starts* one physical
  engine initialization, counted by `initCount` — and await it
  (lines 490-491).
* `InitEv.completeOk h` — the in-flight initialization resolves with
  handle `h`: the creator's continuation runs
  `this.uromanInstance = await this.initPromise; this.initPromise = null`
  (lines 491-492).
* `InitEv.completeFail` — the in-flight initialization rejects
  (`loadUroman`'s catch rethrows `MCPError`, line 471-478): the await at
  line 491 throws, so line 492 never runs and `initPromise` stays the
  rejected promise, failing every later caller fast with the same
  diagnostic.
-/

/-- The `initPromise` field: absent, pending, or settled-rejected. -/
inductive PromState where
  | noneP
  | pending
  | rejected
deriving DecidableEq, Repr

/-- What one logical `getUroman` caller receives: the already-ready handle
directly (line 483), or the one shared in-flight/settled promise
(lines 487, 491). -/
inductive CallerRes where
  | direct (h : Nat)
  | shared
deriving DecidableEq, Repr

/-- An event of the initialization system. -/
inductive InitEv where
  | enter
  | completeOk (h : Nat)
  | completeFail
deriving DecidableEq, Repr

/-- The process-wide initialization state; `initCount` counts physical
`loadUroman` invocations, `results` what each caller observed. -/
structure InitState where
  inst : Option Nat := none
  prom : PromState := .noneP
  initCount : Nat := 0
  results : List CallerRes := []
deriving DecidableEq, Repr

/-- One atomic step of the event system (see the section comment for the
line-by-line correspondence with `getUroman`). -/
def initStep (s : InitState) : InitEv → InitState
  | .enter =>
    match s.inst with
    | some h => { s with results := s.results ++ [.direct h] }
    | none =>
      match s.prom with
      | .pending => { s with results := s.results ++ [.shared] }
      | .rejected => { s with results := s.results ++ [.shared] }
      | .noneP =>
        { s with prom := .pending
                 initCount := s.initCount + 1
                 results := s.results ++ [.shared] }
  | .completeOk h =>
    if s.prom = .pending then { s with inst := some h, prom := .noneP } else s
  | .completeFail =>
    if s.prom = .pending then { s with prom := .rejected } else s

/-- Run a whole interleaving from the cold state. -/
def runInit (evs : List InitEv) : InitState :=
  evs.foldl initStep {}

/-! ## Concrete instances used by witnesses and counterexamples -/

/-- The fully-defaulted service configuration. -/
def defaultConfig : EffectiveConfig := mkService {}

/-- A small-capacity configuration (capacity 2) for cache experiments. -/
def smallConfig : EffectiveConfig := { defaultConfig with cacheSize := 2 }

/-- A concrete engine that echoes its input (in particular it romanizes
the empty string to the empty string, as the real engine does). -/
def engEcho : Engine := fun t _ _ => .ok (.outStr t)

/-- Inserting a list of fingerprints into a cache, oldest first — the
scenario of the spec's eviction property. -/
def insertAll (cfg : EffectiveConfig) (kvs : List (String × String)) :
    List (String × String) :=
  kvs.foldl (fun m kv => addToCache cfg m kv.1 kv.2) []

/-! ## Lemmas about the JS `Map` model -/

theorem mapGet_mapSet_self (m : List (String × String)) (k v : String) :
    mapGet (mapSet m k v) k = some v := by
  induction m with
  | nil => simp [mapSet, mapGet]
  | cons p rest ih =>
    obtain ⟨k', v'⟩ := p
    by_cases h : k' = k
    · subst h; simp [mapSet, mapGet]
    · simp [mapSet, mapGet, h, ih]

theorem mapSet_eq_append (m : List (String × String)) (k v : String)
    (h : k ∉ m.map Prod.fst) : mapSet m k v = m ++ [(k, v)] := by
  induction m with
  | nil => simp [mapSet]
  | cons p rest ih =>
    obtain ⟨k', v'⟩ := p
    simp only [List.map_cons, List.mem_cons, not_or] at h
    simp [mapSet, Ne.symm h.1, ih h.2]

theorem mapGet_eq_none (m : List (String × String)) (k : String)
    (h : k ∉ m.map Prod.fst) : mapGet m k = none := by
  induction m with
  | nil => simp [mapGet]
  | cons p rest ih =>
    obtain ⟨k', v'⟩ := p
    simp only [List.map_cons, List.mem_cons, not_or] at h
    simp [mapGet, Ne.symm h.1, ih h.2]

theorem mapGet_of_mem_nodup (m : List (String × String)) (k v : String)
    (hnd : (m.map Prod.fst).Nodup) (hm : (k, v) ∈ m) : mapGet m k = some v := by
  induction m with
  | nil => cases hm
  | cons p rest ih =>
    obtain ⟨k', v'⟩ := p
    simp only [List.map_cons, List.nodup_cons] at hnd
    rcases List.mem_cons.mp hm with heq | hmem
    · cases heq; simp [mapGet]
    · have hk : k' ≠ k := by
        intro hpk
        apply hnd.1
        rw [hpk]
        exact List.mem_map.mpr ⟨(k, v), hmem, rfl⟩
      simp [mapGet, hk, ih hnd.2 hmem]

theorem mapGet_mapSet_ne (m : List (String × String)) (k k' v : String)
    (h : k' ≠ k) : mapGet (mapSet m k v) k' = mapGet m k' := by
  induction m with
  | nil => simp [mapSet, mapGet, Ne.symm h]
  | cons p rest ih =>
    obtain ⟨k0, v0⟩ := p
    by_cases hk : k0 = k
    · subst hk; simp [mapSet, mapGet, Ne.symm h]
    · simp [mapSet, mapGet, hk, ih]

theorem mapSet_keys_of_mem (m : List (String × String)) (k v : String)
    (h : k ∈ m.map Prod.fst) : (mapSet m k v).map Prod.fst = m.map Prod.fst := by
  induction m with
  | nil => cases h
  | cons p rest ih =>
    obtain ⟨k0, v0⟩ := p
    by_cases hk : k0 = k
    · subst hk; simp [mapSet]
    · have : k ∈ rest.map Prod.fst := by
        rcases List.mem_cons.mp h with h1 | h1
        · exact absurd h1.symm hk
        · exact h1
      simp [mapSet, hk, ih this]

/-! ## Lemmas about `addToCache` -/

theorem addToCache_get_self (cfg : EffectiveConfig) (m : List (String × String))
    (k v : String) : mapGet (addToCache cfg m k v) k = some v := by
  unfold addToCache
  exact mapGet_mapSet_self _ k v

theorem addToCache_below (cfg : EffectiveConfig) (m : List (String × String))
    (k v : String) (h : m.length < cfg.cacheSize) :
    addToCache cfg m k v = mapSet m k v := by
  unfold addToCache
  simp [Nat.not_le.mpr h]

theorem addToCache_full (cfg : EffectiveConfig) (k0 v0 : String)
    (t : List (String × String)) (k v : String)
    (hlen : ((k0, v0) :: t).length = cfg.cacheSize) (hk0 : k0 ≠ "")
    (hfresh : k ∉ ((k0, v0) :: t).map Prod.fst) :
    addToCache cfg ((k0, v0) :: t) k v = t ++ [(k, v)] := by
  unfold addToCache
  have hge : ((k0, v0) :: t).length ≥ cfg.cacheSize := Nat.le_of_eq hlen.symm
  simp only [hge, if_pos, hk0, if_neg, mapDelete, if_pos rfl]
  have hft : k ∉ t.map Prod.fst := by
    simp only [List.map_cons, List.mem_cons, not_or] at hfresh
    exact hfresh.2
  simp [hk0, mapSet_eq_append t k v hft]

theorem foldAdd_fresh (cfg : EffectiveConfig) :
    ∀ (kvs m : List (String × String)),
      m.length + kvs.length ≤ cfg.cacheSize →
      (∀ kv ∈ kvs, kv.1 ∉ m.map Prod.fst) →
      (kvs.map Prod.fst).Nodup →
      kvs.foldl (fun acc kv => addToCache cfg acc kv.1 kv.2) m = m ++ kvs := by
  intro kvs
  induction kvs with
  | nil => intro m _ _ _; simp
  | cons kv rest ih =>
    intro m hlen hfresh hnd
    obtain ⟨k, v⟩ := kv
    simp only [List.map_cons, List.nodup_cons] at hnd
    have hlt : m.length < cfg.cacheSize := by
      simp only [List.length_cons] at hlen
      omega
    have hstep : addToCache cfg m k v = m ++ [(k, v)] := by
      rw [addToCache_below cfg m k v hlt]
      exact mapSet_eq_append m k v (hfresh (k, v) (List.mem_cons_self _ _))
    have hrest : ∀ p ∈ rest, p.1 ∉ (m ++ [(k, v)]).map Prod.fst := by
      intro p hp
      simp only [List.map_append, List.mem_append, List.map_cons, List.map_nil,
        List.mem_singleton, not_or]
      refine ⟨hfresh p (List.mem_cons_of_mem _ hp), ?_⟩
      intro hpk
      exact hnd.1 (hpk ▸ List.mem_map.mpr ⟨p, hp, rfl⟩)
    have hlen' : (m ++ [(k, v)]).length + rest.length ≤ cfg.cacheSize := by
      simp only [List.length_cons] at hlen
      simp only [List.length_append, List.length_cons, List.length_nil]
      omega
    calc ((k, v) :: rest).foldl (fun acc p => addToCache cfg acc p.1 p.2) m
        = rest.foldl (fun acc p => addToCache cfg acc p.1 p.2) (addToCache cfg m k v) := by
          rw [List.foldl_cons]
      _ = rest.foldl (fun acc p => addToCache cfg acc p.1 p.2) (m ++ [(k, v)]) := by
          rw [hstep]
      _ = (m ++ [(k, v)]) ++ rest := ih (m ++ [(k, v)]) hlen' hrest hnd.2
      _ = m ++ (k, v) :: rest := by simp

/-! ## Claim C2 -/

/-- C2: `addToCache` on a full cache (size equal to the configured
capacity) evicts exactly one entry — the earliest inserted — before
inserting the new one (first conjunct); consequently inserting
`capacity + 1` distinct fingerprints into an initially empty cache leaves
exactly the earliest-inserted fingerprint absent while all later-inserted
fingerprints remain present with their values (second conjunct).
`1 ≤ cacheSize` and nonempty keys reflect real configurations and real
fingerprints — every `generateCacheKey` output contains `:` separators. -/
theorem addToCache_eviction_property (cfg : EffectiveConfig)
    (hcap : 1 ≤ cfg.cacheSize) :
    (∀ (m : List (String × String)) (k v : String),
       m.length = cfg.cacheSize →
       (∀ p ∈ m, p.1 ≠ "") →
       k ∉ m.map Prod.fst →
       addToCache cfg m k v = m.tail ++ [(k, v)])
    ∧
    (∀ (k0 v0 : String) (rest : List (String × String)),
       ((k0, v0) :: rest).length = cfg.cacheSize + 1 →
       (((k0, v0) :: rest).map Prod.fst).Nodup →
       (∀ p ∈ (k0, v0) :: rest, p.1 ≠ "") →
       insertAll cfg ((k0, v0) :: rest) = rest ∧
       mapGet (insertAll cfg ((k0, v0) :: rest)) k0 = none ∧
       ∀ kv ∈ rest, mapGet (insertAll cfg ((k0, v0) :: rest)) kv.1 = some kv.2) := by
  constructor
  · intro m k v hlen hne hfresh
    cases m with
    | nil =>
      exfalso
      simp only [List.length_nil] at hlen
      omega
    | cons p t =>
      obtain ⟨k0, v0⟩ := p
      have h := addToCache_full cfg k0 v0 t k v hlen
        (hne (k0, v0) (List.mem_cons_self _ _)) hfresh
      simpa using h
  · intro k0 v0 rest hlen hnd hne
    have hrl : rest.length = cfg.cacheSize := by
      simp only [List.length_cons] at hlen
      omega
    have hrne : rest ≠ [] := by
      intro h
      rw [h] at hrl
      simp only [List.length_nil] at hrl
      omega
    have hdecomp : rest.dropLast ++ [rest.getLast hrne] = rest :=
      List.dropLast_append_getLast hrne
    simp only [List.map_cons, List.nodup_cons] at hnd
    obtain ⟨hk0notin, hrestnd⟩ := hnd
    have hmapdecomp : (rest.dropLast.map Prod.fst) ++ [(rest.getLast hrne).1] =
        rest.map Prod.fst := by
      conv_rhs => rw [← hdecomp]
      simp
    have hsplitnd : (rest.dropLast.map Prod.fst).Nodup ∧
        (rest.getLast hrne).1 ∉ rest.dropLast.map Prod.fst := by
      rw [← hmapdecomp] at hrestnd
      rcases List.nodup_append.mp hrestnd with ⟨nd1, _, disj⟩
      refine ⟨nd1, fun hmem => ?_⟩
      exact disj hmem (List.mem_singleton.mpr rfl)
    have hfrontsub : ∀ a, a ∈ rest.dropLast.map Prod.fst → a ∈ rest.map Prod.fst :=
      fun a ha => ((List.dropLast_sublist rest).map Prod.fst).subset ha
    have hlast_mem : (rest.getLast hrne).1 ∈ rest.map Prod.fst :=
      List.mem_map.mpr ⟨rest.getLast hrne, List.getLast_mem hrne, rfl⟩
    have hlast_ne_k0 : (rest.getLast hrne).1 ≠ k0 := by
      intro h
      exact hk0notin (h ▸ hlast_mem)
    have hfrontlen : ((k0, v0) :: rest.dropLast).length = cfg.cacheSize := by
      simp only [List.length_cons, List.length_dropLast]
      omega
    have hfrontnd : (((k0, v0) :: rest.dropLast).map Prod.fst).Nodup := by
      simp only [List.map_cons, List.nodup_cons]
      exact ⟨fun h => hk0notin (hfrontsub _ h), hsplitnd.1⟩
    have hlfresh : (rest.getLast hrne).1 ∉ ((k0, v0) :: rest.dropLast).map Prod.fst := by
      simp only [List.map_cons, List.mem_cons, not_or]
      exact ⟨hlast_ne_k0, hsplitnd.2⟩
    have hsplit : (k0, v0) :: rest =
        ((k0, v0) :: rest.dropLast) ++ [rest.getLast hrne] := by
      conv_lhs => rw [← hdecomp]
      rw [List.cons_append]
    have hfold1 : ((k0, v0) :: rest.dropLast).foldl
        (fun acc kv => addToCache cfg acc kv.1 kv.2) [] = (k0, v0) :: rest.dropLast := by
      have h := foldAdd_fresh cfg ((k0, v0) :: rest.dropLast) []
        (by simp only [List.length_nil, Nat.zero_add]; omega)
        (by intro kv _; simp)
        hfrontnd
      simpa using h
    have hins : insertAll cfg ((k0, v0) :: rest) = rest := by
      unfold insertAll
      rw [hsplit, List.foldl_append, hfold1]
      simp only [List.foldl_cons, List.foldl_nil]
      have h := addToCache_full cfg k0 v0 rest.dropLast
        (rest.getLast hrne).1 (rest.getLast hrne).2 hfrontlen
        (hne (k0, v0) (List.mem_cons_self _ _)) hlfresh
      rw [h]
      rw [Prod.mk.eta]
      exact hdecomp
    refine ⟨hins, ?_, ?_⟩
    · rw [hins]
      exact mapGet_eq_none rest k0 hk0notin
    · intro kv hkv
      rw [hins]
      exact mapGet_of_mem_nodup rest kv.1 kv.2 hrestnd (by rwa [Prod.mk.eta])

/-- Witness for C2: capacity 2, three distinct fingerprints. -/
theorem addToCache_eviction_property_witness :
    insertAll smallConfig [("a:auto:str", "1"), ("b:auto:str", "2"), ("c:auto:str", "3")] =
      [("b:auto:str", "2"), ("c:auto:str", "3")] ∧
    mapGet (insertAll smallConfig
      [("a:auto:str", "1"), ("b:auto:str", "2"), ("c:auto:str", "3")]) "a:auto:str" = none := by
  have h := (addToCache_eviction_property smallConfig (by decide)).2
    "a:auto:str" "1" [("b:auto:str", "2"), ("c:auto:str", "3")]
    (by decide) (by decide) (by decide)
  exact ⟨h.1, h.2.1⟩

/-! ## Claim C8 -/

/-- C8 counterexample: with capacity 2 and a full cache, `addToCache` on
the already-present fingerprint `"b:auto:str"` evicts the *other* entry
`"a:auto:str"` (and re-inserts the overwritten key at the end), refuting
the claim that an overwrite changes nothing else regardless of capacity. -/
theorem addToCache_overwrite_at_capacity_evicts :
    mapGet [("a:auto:str", "x"), ("b:auto:str", "y")] "b:auto:str" = some "y" ∧
    addToCache smallConfig [("a:auto:str", "x"), ("b:auto:str", "y")]
      "b:auto:str" "z" = [("b:auto:str", "z")] ∧
    mapGet (addToCache smallConfig [("a:auto:str", "x"), ("b:auto:str", "y")]
      "b:auto:str" "z") "a:auto:str" = none := by
  decide

/-- C8 (amended): when the cache is strictly below capacity, `addToCache`
with an already-present fingerprint overwrites that fingerprint's value in
place: the key sequence (the eviction order) is unchanged, no entry is
evicted, and every other fingerprint still maps to its old value.  (At
capacity the eviction branch runs first and removes the earliest-inserted
entry, as the counterexample shows.) -/
theorem addToCache_overwrite_below_capacity (cfg : EffectiveConfig)
    (m : List (String × String)) (k v : String)
    (hlen : m.length < cfg.cacheSize) (hmem : k ∈ m.map Prod.fst) :
    addToCache cfg m k v = mapSet m k v ∧
    (addToCache cfg m k v).map Prod.fst = m.map Prod.fst ∧
    mapGet (addToCache cfg m k v) k = some v ∧
    ∀ k', k' ≠ k → mapGet (addToCache cfg m k v) k' = mapGet m k' := by
  have hb := addToCache_below cfg m k v hlen
  refine ⟨hb, ?_, ?_, ?_⟩
  · rw [hb]
    exact mapSet_keys_of_mem m k v hmem
  · rw [hb]
    exact mapGet_mapSet_self m k v
  · intro k' hk'
    rw [hb]
    exact mapGet_mapSet_ne m k k' v hk'

/-- Witness for C8's amended theorem: default capacity (32768), a
two-entry cache, overwriting the first fingerprint. -/
theorem addToCache_overwrite_below_capacity_witness :
    addToCache defaultConfig [("a:auto:str", "x"), ("b:auto:str", "y")]
        "a:auto:str" "z" =
      mapSet [("a:auto:str", "x"), ("b:auto:str", "y")] "a:auto:str" "z" ∧
    (addToCache defaultConfig [("a:auto:str", "x"), ("b:auto:str", "y")]
        "a:auto:str" "z").map Prod.fst =
      [("a:auto:str", "x"), ("b:auto:str", "y")].map Prod.fst ∧
    mapGet (addToCache defaultConfig [("a:auto:str", "x"), ("b:auto:str", "y")]
        "a:auto:str" "z") "a:auto:str" = some "z" ∧
    ∀ k', k' ≠ "a:auto:str" →
      mapGet (addToCache defaultConfig [("a:auto:str", "x"), ("b:auto:str", "y")]
        "a:auto:str" "z") k' =
      mapGet [("a:auto:str", "x"), ("b:auto:str", "y")] k' :=
  addToCache_overwrite_below_capacity defaultConfig
    [("a:auto:str", "x"), ("b:auto:str", "y")] "a:auto:str" "z"
    (by decide) (by decide)

/-! ## Lemmas about `romanize` -/

theorem validateInput_ok (cfg : EffectiveConfig) (s : String)
    (hlen : jsLength s ≤ cfg.maxTextLength) :
    validateInput cfg (.jstr s) = .ok s := by
  have h : ¬ (jsLength s > cfg.maxTextLength) := by omega
  simp [validateInput, h]

/-- `format: undefined` and `format: 'str'` take the same path through
`romanize`. -/
theorem romanize_none_eq_str (eng : Engine) (cfg : EffectiveConfig) (t : JSVal)
    (language : Option String) (st : RomState) :
    romanize eng cfg t language none st = romanize eng cfg t language (some .str) st := rfl

/-- Evaluation of `romanize` in plain mode on a valid string input: the
cache-lookup / engine-invocation structure, with the `if (cached)`
truthiness test spelled out. -/
theorem romanize_str_eval (eng : Engine) (cfg : EffectiveConfig) (s : String)
    (language : Option String) (st : RomState)
    (hlen : jsLength s ≤ cfg.maxTextLength)
    (hlang : validateLanguageCode language = .ok ()) :
    romanize eng cfg (.jstr s) language (some .str) st =
      (match mapGet st.cache (generateCacheKey s language (some "str")) with
       | some w => if w = "" then none else some w
       | none => none).elim
        (match eng s language .str with
         | .error _ =>
           (.error ⟨.ROMANIZATION_FAILED, "Failed to romanize text"⟩,
            { st with engineCalls := st.engineCalls + 1 })
         | .ok (.outStr v) =>
           (.ok (.textOut v),
            { cache := addToCache cfg st.cache (generateCacheKey s language (some "str")) v
              engineCalls := st.engineCalls + 1 })
         | .ok (.outEdges b) =>
           (.ok (.edgesOut b), { st with engineCalls := st.engineCalls + 1 }))
        (fun w => (.ok (.textOut w), st)) := by
  unfold romanize
  rw [validateInput_ok cfg s hlen, hlang]
  cases hget : mapGet st.cache (generateCacheKey s language (some "str")) with
  | none =>
    simp only [hget, Option.elim]
    cases heng : eng s language .str with
    | error e => rfl
    | ok out => cases out <;> rfl
  | some w =>
    by_cases hw : w = ""
    · subst hw
      simp only [hget, if_pos rfl, Option.elim]
      cases heng : eng s language .str with
      | error e => rfl
      | ok out => cases out <;> rfl
    · simp only [hget, if_neg hw, Option.elim]

/-- A genuine plain-mode cache hit: present and nonempty. -/
theorem romanize_hit_str (eng : Engine) (cfg : EffectiveConfig) (s : String)
    (language : Option String) (st : RomState) (w : String)
    (hlen : jsLength s ≤ cfg.maxTextLength)
    (hlang : validateLanguageCode language = .ok ())
    (hget : mapGet st.cache (generateCacheKey s language (some "str")) = some w)
    (hw : w ≠ "") :
    romanize eng cfg (.jstr s) language (some .str) st = (.ok (.textOut w), st) := by
  rw [romanize_str_eval eng cfg s language st hlen hlang, hget]
  simp [hw]

/-- A plain-mode cache miss (absent, or present but empty — the falsy
case) with a successful string engine result. -/
theorem romanize_miss_str (eng : Engine) (cfg : EffectiveConfig) (s : String)
    (language : Option String) (st : RomState) (v : String)
    (hlen : jsLength s ≤ cfg.maxTextLength)
    (hlang : validateLanguageCode language = .ok ())
    (hmiss : (match mapGet st.cache (generateCacheKey s language (some "str")) with
              | some w => if w = "" then none else some w
              | none => none) = (none : Option String))
    (heng : eng s language .str = .ok (.outStr v)) :
    romanize eng cfg (.jstr s) language (some .str) st =
      (.ok (.textOut v),
       { cache := addToCache cfg st.cache (generateCacheKey s language (some "str")) v
         engineCalls := st.engineCalls + 1 }) := by
  rw [romanize_str_eval eng cfg s language st hlen hlang, hmiss, heng]
  rfl

/-! ## Claim C1 -/

/-- C1 counterexample: the engine (like real uroman) romanizes the empty
string to the empty string; two identical plain-mode `romanize` calls on
the valid input `""` then invoke the engine twice, because the cached
empty string fails the `if (cached)` truthiness test and the second call
reaches the engine again. -/
theorem romanize_empty_result_reinvokes_engine :
    (romanize engEcho defaultConfig (.jstr "") none none {}).2.engineCalls = 1 ∧
    ((romanize engEcho defaultConfig (.jstr "") none none
        (romanize engEcho defaultConfig (.jstr "") none none {}).2).2).engineCalls = 2 := by
  decide

/-- C1 (amended): for a valid text and language in plain mode, when the
engine's plain result is a *nonempty* string, the first call's successful
result is stored in the cache under the `(text, language or auto, str)`
fingerprint, and a second identical call returns the identical value with
completely unchanged state — in particular without a second engine
invocation.  (For an empty-string result the truthiness cache-hit test
fails and the engine is invoked again, as the counterexample shows.) -/
theorem romanize_second_call_cache_hit (eng : Engine) (cfg : EffectiveConfig)
    (s : String) (language : Option String) (format : Option RomFormat)
    (st0 : RomState) (v : String)
    (hfmt : format = none ∨ format = some RomFormat.str)
    (hlen : jsLength s ≤ cfg.maxTextLength)
    (hlang : validateLanguageCode language = .ok ())
    (heng : eng s language RomFormat.str = .ok (.outStr v))
    (hv : v ≠ "") :
    ∃ w, w ≠ "" ∧
      (romanize eng cfg (.jstr s) language format st0).1 = .ok (.textOut w) ∧
      mapGet (romanize eng cfg (.jstr s) language format st0).2.cache
        (generateCacheKey s language (some "str")) = some w ∧
      romanize eng cfg (.jstr s) language format
          (romanize eng cfg (.jstr s) language format st0).2 =
        romanize eng cfg (.jstr s) language format st0 := by
  have hcore : ∀ st0 : RomState,
      ∃ w, w ≠ "" ∧
        (romanize eng cfg (.jstr s) language (some .str) st0).1 = .ok (.textOut w) ∧
        mapGet (romanize eng cfg (.jstr s) language (some .str) st0).2.cache
          (generateCacheKey s language (some "str")) = some w ∧
        romanize eng cfg (.jstr s) language (some .str)
            (romanize eng cfg (.jstr s) language (some .str) st0).2 =
          romanize eng cfg (.jstr s) language (some .str) st0 := by
    intro st
    cases hget : mapGet st.cache (generateCacheKey s language (some "str")) with
    | none =>
      -- cache miss: the engine runs and its nonempty result is cached
      have h1 := romanize_miss_str eng cfg s language st v hlen hlang (by rw [hget]) heng
      refine ⟨v, hv, by rw [h1], ?_, ?_⟩
      · rw [h1]
        exact addToCache_get_self cfg st.cache _ v
      · rw [h1]
        exact romanize_hit_str eng cfg s language _ v hlen hlang
          (addToCache_get_self cfg st.cache _ v) hv
    | some w =>
      by_cases hw : w = ""
      · -- a cached empty string is still a miss: `if (cached)` is falsy
        subst hw
        have h1 := romanize_miss_str eng cfg s language st v hlen hlang
          (by rw [hget]; simp) heng
        refine ⟨v, hv, by rw [h1], ?_, ?_⟩
        · rw [h1]
          exact addToCache_get_self cfg st.cache _ v
        · rw [h1]
          exact romanize_hit_str eng cfg s language _ v hlen hlang
            (addToCache_get_self cfg st.cache _ v) hv
      · -- genuine cache hit already on the first call
        have h1 := romanize_hit_str eng cfg s language st w hlen hlang hget hw
        refine ⟨w, hw, by rw [h1], ?_, ?_⟩
        · rw [h1]
          exact hget
        · rw [h1]
          exact romanize_hit_str eng cfg s language st w hlen hlang hget hw
  rcases hfmt with rfl | rfl
  · simpa only [romanize_none_eq_str] using hcore st0
  · exact hcore st0

/-- Witness for C1's amended theorem: two calls on `"ab"` with language
`rus`, echo engine, starting from the empty state. -/
theorem romanize_second_call_cache_hit_witness :
    ∃ w, w ≠ "" ∧
      (romanize engEcho defaultConfig (.jstr "ab") (some "rus") none {}).1 =
        .ok (.textOut w) ∧
      mapGet (romanize engEcho defaultConfig (.jstr "ab") (some "rus") none {}).2.cache
        (generateCacheKey "ab" (some "rus") (some "str")) = some w ∧
      romanize engEcho defaultConfig (.jstr "ab") (some "rus") none
          (romanize engEcho defaultConfig (.jstr "ab") (some "rus") none {}).2 =
        romanize engEcho defaultConfig (.jstr "ab") (some "rus") none {} :=
  romanize_second_call_cache_hit engEcho defaultConfig "ab" (some "rus") none {} "ab"
    (Or.inl rfl) (by decide) rfl rfl (by decide)

/-! ## Claim C4 -/

/-- A configuration with a tiny text ceiling, for exercising the length
validation on short concrete inputs. -/
def tinyConfig : EffectiveConfig := { defaultConfig with maxTextLength := 1 }

/-- C4 counterexample: the language code `""` is present in the arguments
and does not match `^[a-z]{3}$`, yet `romanize` does not fail with
`InvalidLanguageCode` — it succeeds and invokes the engine, because the
guard `language && !/^[a-z]{3}$/.test(language)` is false for the falsy
empty string. -/
theorem romanize_empty_language_code_accepted :
    (romanize engEcho defaultConfig (.jstr "hi") (some "") none {}).1 =
      .ok (.textOut "hi") ∧
    (romanize engEcho defaultConfig (.jstr "hi") (some "") none {}).2.engineCalls = 1 :=
  ⟨rfl, rfl⟩

/-- C4 (amended): non-string text fails with `InvalidInput`; over-long
text fails with `TextTooLong`; a language code that is present and
*nonempty* and does not match `^[a-z]{3}$` fails with
`InvalidLanguageCode` (an empty code is falsy in JS and is let through).
In each failure case the returned state is exactly the input state: the
engine-invocation counter and the cache are untouched. -/
theorem romanize_validation_failures (eng : Engine) (cfg : EffectiveConfig) :
    (∀ (language : Option String) (format : Option RomFormat) (st : RomState),
       (romanize eng cfg .jnonstring language format st).1 =
         .error ⟨.INVALID_INPUT, "Text must be a string"⟩ ∧
       (romanize eng cfg .jnonstring language format st).2 = st)
    ∧
    (∀ (s : String) (language : Option String) (format : Option RomFormat)
       (st : RomState),
       jsLength s > cfg.maxTextLength →
       (romanize eng cfg (.jstr s) language format st).1 =
         .error ⟨.TEXT_TOO_LONG, "Text exceeds maximum length"⟩ ∧
       (romanize eng cfg (.jstr s) language format st).2 = st)
    ∧
    (∀ (s l : String) (format : Option RomFormat) (st : RomState),
       jsLength s ≤ cfg.maxTextLength →
       l ≠ "" →
       matchesIso3 l = false →
       (romanize eng cfg (.jstr s) (some l) format st).1 =
         .error ⟨.INVALID_LANGUAGE_CODE, "Invalid language code"⟩ ∧
       (romanize eng cfg (.jstr s) (some l) format st).2 = st) := by
  refine ⟨?_, ?_, ?_⟩
  · intro language format st
    exact ⟨rfl, rfl⟩
  · intro s language format st h
    have hvi : validateInput cfg (.jstr s) =
        .error ⟨.TEXT_TOO_LONG, "Text exceeds maximum length"⟩ := by
      simp [validateInput, h]
    constructor <;> simp [romanize, hvi]
  · intro s l format st hle hl hm
    have hvl : validateLanguageCode (some l) =
        .error ⟨.INVALID_LANGUAGE_CODE, "Invalid language code"⟩ := by
      simp [validateLanguageCode, hl, hm]
    constructor <;> simp [romanize, validateInput_ok cfg s hle, hvl]

/-- Witness for C4's amended theorem at concrete inputs (ceiling 1, text
`"ab"` too long, nonempty invalid code `"Ru"`). -/
theorem romanize_validation_failures_witness :
    ((romanize engEcho tinyConfig .jnonstring none none {}).1 =
        .error ⟨.INVALID_INPUT, "Text must be a string"⟩ ∧
     (romanize engEcho tinyConfig .jnonstring none none {}).2 = {}) ∧
    ((romanize engEcho tinyConfig (.jstr "ab") none none {}).1 =
        .error ⟨.TEXT_TOO_LONG, "Text exceeds maximum length"⟩ ∧
     (romanize engEcho tinyConfig (.jstr "ab") none none {}).2 = {}) ∧
    ((romanize engEcho tinyConfig (.jstr "a") (some "Ru") none {}).1 =
        .error ⟨.INVALID_LANGUAGE_CODE, "Invalid language code"⟩ ∧
     (romanize engEcho tinyConfig (.jstr "a") (some "Ru") none {}).2 = {}) := by
  have h := romanize_validation_failures engEcho tinyConfig
  exact ⟨h.1 none none {},
         h.2.1 "ab" none none {} (by decide),
         h.2.2 "a" "Ru" none {} (by decide) (by decide) (by decide)⟩

/-! ## Lemmas about `romanizeBatch` -/

/-- The loop state after the head item is the loop state of the tail,
started from the post-head `romanize` state. -/
theorem batchLoop_cons_state (eng : Engine) (cfg : EffectiveConfig)
    (itemLang : Option String) (t : String) (l : List String) (i0 : Nat)
    (st : RomState) :
    (batchLoop eng cfg itemLang (t :: l) i0 st).2.2.2 =
      (batchLoop eng cfg itemLang l (i0 + 1)
        (romanize eng cfg (.jstr t) itemLang (some .str) st).2).2.2.2 := by
  rcases hp : romanize eng cfg (.jstr t) itemLang (some .str) st with ⟨r, st'⟩
  cases r with
  | ok out => simp only [batchLoop, hp]
  | error e => simp only [batchLoop, hp]

/-- Shape of the per-item loop: one result per input item, indices
continuing from the start index, failures recorded with the item's own
text and an error message, successes and failures adding up, items over
the text ceiling always failing (their per-item `romanize` rejects them
before any engine work), and — both directions of fault isolation — the
recorded `success` flag is exactly the outcome of the item's own
`romanize` call at the loop state reached after the preceding items: an
error is recorded as a failure entry carrying the item's text and the
error's message, a success as a success entry with no error. -/
theorem batchLoop_spec (eng : Engine) (cfg : EffectiveConfig)
    (itemLang : Option String) :
    ∀ (texts : List String) (i0 : Nat) (st : RomState),
      (batchLoop eng cfg itemLang texts i0 st).1.length = texts.length ∧
      (batchLoop eng cfg itemLang texts i0 st).2.1 +
        (batchLoop eng cfg itemLang texts i0 st).2.2.1 = texts.length ∧
      ∀ j t, texts.get? j = some t →
        ∃ item, (batchLoop eng cfg itemLang texts i0 st).1.get? j = some item ∧
          item.index = i0 + j ∧
          item.original = t ∧
          (item.success = false → item.romanized = t ∧ item.error.isSome) ∧
          (jsLength t > cfg.maxTextLength → item.success = false) ∧
          (∀ e stAfter,
             romanize eng cfg (.jstr t) itemLang (some .str)
               ((batchLoop eng cfg itemLang (texts.take j) i0 st).2.2.2) =
               (.error e, stAfter) →
             item.success = false ∧ item.romanized = t ∧
               item.error = some e.message) ∧
          (∀ out stAfter,
             romanize eng cfg (.jstr t) itemLang (some .str)
               ((batchLoop eng cfg itemLang (texts.take j) i0 st).2.2.2) =
               (.ok out, stAfter) →
             item.success = true ∧ item.error = none) := by
  intro texts
  induction texts with
  | nil =>
    intro i0 st
    refine ⟨rfl, rfl, ?_⟩
    intro j t ht
    simp at ht
  | cons t rest ih =>
    intro i0 st
    rcases hp : romanize eng cfg (.jstr t) itemLang (some .str) st with ⟨r, st'⟩
    cases r with
    | ok out =>
      have hstep : batchLoop eng cfg itemLang (t :: rest) i0 st =
          (⟨i0, t, (match out with | .textOut s => s | .edgesOut b => b),
             true, none⟩ :: (batchLoop eng cfg itemLang rest (i0 + 1) st').1,
           (batchLoop eng cfg itemLang rest (i0 + 1) st').2.1 + 1,
           (batchLoop eng cfg itemLang rest (i0 + 1) st').2.2.1,
           (batchLoop eng cfg itemLang rest (i0 + 1) st').2.2.2) := by
        simp only [batchLoop, hp]
        cases out <;> rfl
      obtain ⟨ihlen, ihsum, ihidx⟩ := ih (i0 + 1) st'
      refine ⟨?_, ?_, ?_⟩
      · rw [hstep]
        simp [ihlen]
      · rw [hstep]
        simp only [List.length_cons]
        omega
      · intro j t' ht
        cases j with
        | zero =>
          simp only [List.get?] at ht
          cases ht
          rw [hstep]
          refine ⟨_, rfl, by simp, rfl, ?_, ?_, ?_, ?_⟩
          · intro h
            simp at h
          · intro htl
            exfalso
            have hcontra := ((romanize_validation_failures eng cfg).2.1
              t itemLang (some .str) st htl).1
            rw [hp] at hcontra
            simp at hcontra
          · intro e2 stAfter hrom
            simp only [List.take_zero, batchLoop] at hrom
            rw [hp] at hrom
            simp at hrom
          · intro out2 stAfter _
            exact ⟨rfl, rfl⟩
        | succ j' =>
          simp only [List.get?] at ht
          obtain ⟨item, hitem, hidx, horig, hfail, hlong, herr, hok⟩ :=
            ihidx j' t' ht
          refine ⟨item, ?_, ?_, horig, hfail, hlong, ?_, ?_⟩
          · rw [hstep]
            simpa using hitem
          · rw [hidx]
            omega
          · intro e2 stAfter hrom
            rw [List.take_succ_cons, batchLoop_cons_state, hp] at hrom
            exact herr e2 stAfter hrom
          · intro out2 stAfter hrom
            rw [List.take_succ_cons, batchLoop_cons_state, hp] at hrom
            exact hok out2 stAfter hrom
    | error e =>
      have hstep : batchLoop eng cfg itemLang (t :: rest) i0 st =
          (⟨i0, t, t, false, some e.message⟩ ::
             (batchLoop eng cfg itemLang rest (i0 + 1) st').1,
           (batchLoop eng cfg itemLang rest (i0 + 1) st').2.1,
           (batchLoop eng cfg itemLang rest (i0 + 1) st').2.2.1 + 1,
           (batchLoop eng cfg itemLang rest (i0 + 1) st').2.2.2) := by
        simp only [batchLoop, hp]
      obtain ⟨ihlen, ihsum, ihidx⟩ := ih (i0 + 1) st'
      refine ⟨?_, ?_, ?_⟩
      · rw [hstep]
        simp [ihlen]
      · rw [hstep]
        simp only [List.length_cons]
        omega
      · intro j t' ht
        cases j with
        | zero =>
          simp only [List.get?] at ht
          cases ht
          rw [hstep]
          refine ⟨_, rfl, by simp, rfl, fun _ => ⟨rfl, by simp⟩, fun _ => rfl,
            ?_, ?_⟩
          · intro e2 stAfter hrom
            simp only [List.take_zero, batchLoop] at hrom
            rw [hp] at hrom
            simp only [Prod.mk.injEq] at hrom
            obtain ⟨he, _⟩ := hrom
            obtain rfl : e = e2 := by
              injection he
            exact ⟨rfl, rfl, rfl⟩
          · intro out2 stAfter hrom
            exfalso
            simp only [List.take_zero, batchLoop] at hrom
            rw [hp] at hrom
            simp at hrom
        | succ j' =>
          simp only [List.get?] at ht
          obtain ⟨item, hitem, hidx, horig, hfail, hlong, herr, hok⟩ :=
            ihidx j' t' ht
          refine ⟨item, ?_, ?_, horig, hfail, hlong, ?_, ?_⟩
          · rw [hstep]
            simpa using hitem
          · rw [hidx]
            omega
          · intro e2 stAfter hrom
            rw [List.take_succ_cons, batchLoop_cons_state, hp] at hrom
            exact herr e2 stAfter hrom
          · intro out2 stAfter hrom
            rw [List.take_succ_cons, batchLoop_cons_state, hp] at hrom
            exact hok out2 stAfter hrom

/-- Evaluation of `romanizeBatch` past its two upfront checks. -/
theorem romanizeBatch_eval (eng : Engine) (cfg : EffectiveConfig)
    (texts : List String) (language : Option String) (st : RomState)
    (hsize : texts.length ≤ cfg.maxBatchSize)
    (hlang : validateLanguageCode language = .ok ()) :
    romanizeBatch eng cfg texts language st =
      (.ok ⟨(batchLoop eng cfg (batchItemLang language) texts 0 st).1,
            ⟨texts.length,
             (batchLoop eng cfg (batchItemLang language) texts 0 st).2.1,
             (batchLoop eng cfg (batchItemLang language) texts 0 st).2.2.1⟩⟩,
       (batchLoop eng cfg (batchItemLang language) texts 0 st).2.2.2) := by
  unfold romanizeBatch
  rw [if_neg (by omega), hlang]

/-! ## Claim C3 -/

/-- C3: an in-limit `romanizeBatch` call returns one result per input item
with `results[i].index = i` in input order; a per-item failure does not
abort the batch — every item gets an entry, and when the item's own
per-item `romanize` call (at the loop state reached after the preceding
items) fails, its entry is recorded with `success = false`, the item's own
original text as the romanized value, and that failure's error message,
while a succeeding per-item call is recorded with `success = true` and no
error; `stats.total = N` and `stats.successful + stats.failed = N`. -/
theorem romanizeBatch_shape (eng : Engine) (cfg : EffectiveConfig)
    (texts : List String) (language : Option String) (st : RomState)
    (hsize : texts.length ≤ cfg.maxBatchSize)
    (hlang : validateLanguageCode language = .ok ()) :
    ∃ bres stFin, romanizeBatch eng cfg texts language st = (.ok bres, stFin) ∧
      bres.results.length = texts.length ∧
      bres.stats.total = texts.length ∧
      bres.stats.successful + bres.stats.failed = texts.length ∧
      ∀ j t, texts.get? j = some t →
        ∃ item, bres.results.get? j = some item ∧
          item.index = j ∧
          item.original = t ∧
          (item.success = false → item.romanized = t ∧ item.error.isSome) ∧
          (∀ e stAfter,
             romanize eng cfg (.jstr t) (batchItemLang language) (some .str)
               ((batchLoop eng cfg (batchItemLang language) (texts.take j)
                 0 st).2.2.2) = (.error e, stAfter) →
             item.success = false ∧ item.romanized = t ∧
               item.error = some e.message) ∧
          (∀ out stAfter,
             romanize eng cfg (.jstr t) (batchItemLang language) (some .str)
               ((batchLoop eng cfg (batchItemLang language) (texts.take j)
                 0 st).2.2.2) = (.ok out, stAfter) →
             item.success = true ∧ item.error = none) := by
  obtain ⟨hlen, hsum, hidx⟩ :=
    batchLoop_spec eng cfg (batchItemLang language) texts 0 st
  refine ⟨_, _, romanizeBatch_eval eng cfg texts language st hsize hlang,
    hlen, rfl, hsum, ?_⟩
  intro j t ht
  obtain ⟨item, hitem, hj, horig, hfail, _, herr, hok⟩ := hidx j t ht
  exact ⟨item, hitem, by simpa using hj, horig, hfail, herr, hok⟩

/-- Witness for C3: a two-item batch under text ceiling 1 — the first item
succeeds, the second is over the ceiling, so its per-item `romanize`
fails and the batch records it as a failure entry with the item's own
text and the failure's message while still returning both entries. -/
theorem romanizeBatch_shape_witness :
    (romanizeBatch engEcho tinyConfig ["a", "ab"] none {}).1 =
      .ok ⟨[⟨0, "a", "a", true, none⟩,
            ⟨1, "ab", "ab", false, some "Text exceeds maximum length"⟩],
           ⟨2, 1, 1⟩⟩ ∧
    (∃ bres stFin,
      romanizeBatch engEcho tinyConfig ["a", "ab"] none {} = (.ok bres, stFin) ∧
      bres.results.length = 2 ∧
      bres.stats.total = 2 ∧
      bres.stats.successful + bres.stats.failed = 2 ∧
      ∀ j t, (["a", "ab"] : List String).get? j = some t →
        ∃ item, bres.results.get? j = some item ∧
          item.index = j ∧
          item.original = t ∧
          (item.success = false → item.romanized = t ∧ item.error.isSome) ∧
          (∀ e stAfter,
             romanize engEcho tinyConfig (.jstr t) (batchItemLang none)
               (some .str)
               ((batchLoop engEcho tinyConfig (batchItemLang none)
                 ((["a", "ab"] : List String).take j) 0 {}).2.2.2) =
               (.error e, stAfter) →
             item.success = false ∧ item.romanized = t ∧
               item.error = some e.message) ∧
          (∀ out stAfter,
             romanize engEcho tinyConfig (.jstr t) (batchItemLang none)
               (some .str)
               ((batchLoop engEcho tinyConfig (batchItemLang none)
                 ((["a", "ab"] : List String).take j) 0 {}).2.2.2) =
               (.ok out, stAfter) →
             item.success = true ∧ item.error = none)) :=
  ⟨rfl, romanizeBatch_shape engEcho tinyConfig ["a", "ab"] none {} (by decide) rfl⟩

/-! ## Claim C6 -/

/-- The literal 1001-character text, one character over the declared
per-item schema limit of `romanize_batch`. -/
def longText : String := String.mk (List.replicate 1001 'a')

set_option maxRecDepth 8000 in
/-- C6 counterexample: `romanizeBatch` under the default configuration
happily processes an item of 1001 characters — nothing rejects it and no
per-item length validation against the declared 1000-character schema
limit happens before (or during) the per-item flow; the item succeeds. -/
theorem romanizeBatch_long_item_processed :
    1000 < jsLength longText ∧
    (romanizeBatch engEcho defaultConfig [longText] none {}).1 =
      .ok ⟨[⟨0, longText, longText, true, none⟩], ⟨1, 1, 0⟩⟩ := by
  constructor
  · decide
  · rfl

/-- C6 (amended): `romanizeBatch` validates the batch size upfront — more
than `maxBatchSize` items is rejected with `InvalidInput` and an untouched
state.  Per-item length is *not* validated against the declared
1000-character schema limit; an item is length-checked only inside its
per-item `romanize` call against `maxTextLength`, and an over-limit item
produces a per-item failure entry (its own text echoed back) rather than
a batch rejection. -/
theorem romanizeBatch_validation (eng : Engine) (cfg : EffectiveConfig) :
    (∀ (texts : List String) (language : Option String) (st : RomState),
       texts.length > cfg.maxBatchSize →
       romanizeBatch eng cfg texts language st =
         (.error ⟨.INVALID_INPUT, "Batch size exceeds maximum"⟩, st))
    ∧
    (∀ (texts : List String) (language : Option String) (st : RomState)
       (j : Nat) (t : String),
       texts.length ≤ cfg.maxBatchSize →
       validateLanguageCode language = .ok () →
       texts.get? j = some t →
       jsLength t > cfg.maxTextLength →
       ∃ bres stFin item,
         romanizeBatch eng cfg texts language st = (.ok bres, stFin) ∧
         bres.results.get? j = some item ∧
         item.success = false ∧ item.romanized = t) := by
  constructor
  · intro texts language st h
    unfold romanizeBatch
    rw [if_pos h]
  · intro texts language st j t hsize hlang ht htl
    obtain ⟨_, _, hidx⟩ :=
      batchLoop_spec eng cfg (batchItemLang language) texts 0 st
    obtain ⟨item, hitem, _, horig, hfail, hlong, _, _⟩ := hidx j t ht
    have hs := hlong htl
    exact ⟨_, _, item, romanizeBatch_eval eng cfg texts language st hsize hlang,
      hitem, hs, (hfail hs).1⟩

/-- A configuration with batch ceiling 1, for the batch-size rejection. -/
def tinyBatchConfig : EffectiveConfig := { defaultConfig with maxBatchSize := 1 }

/-- Witness for C6's amended theorem: a two-item batch is rejected under
ceiling 1; a too-long item fails individually under text ceiling 1. -/
theorem romanizeBatch_validation_witness :
    romanizeBatch engEcho tinyBatchConfig ["a", "b"] none {} =
      (.error ⟨.INVALID_INPUT, "Batch size exceeds maximum"⟩, {}) ∧
    ∃ bres stFin item,
      romanizeBatch engEcho tinyConfig ["ab"] none {} = (.ok bres, stFin) ∧
      bres.results.get? 0 = some item ∧
      item.success = false ∧ item.romanized = "ab" :=
  ⟨(romanizeBatch_validation engEcho tinyBatchConfig).1 ["a", "b"] none {} (by decide),
   (romanizeBatch_validation engEcho tinyConfig).2 ["ab"] none {} 0 "ab"
     (by decide) rfl rfl (by decide)⟩

/-! ## Lemmas about the script classifier -/

theorem scriptCountsOf_eq_nil (isLetter : Char → Bool) (s : String)
    (h : ∀ c ∈ s.data, matchScript c.toNat = none ∧ isLetter c = false) :
    scriptCountsOf isLetter s = [] := by
  unfold scriptCountsOf
  suffices haux : ∀ (cs : List Char) (m : List (String × Nat)),
      (∀ c ∈ cs, matchScript c.toNat = none ∧ isLetter c = false) →
      cs.foldl
        (fun m c =>
          let cp := c.toNat
          if cp = 0 then m
          else
            match matchScript cp with
            | some nm => bump m nm
            | none => if isLetter c then bump m "Other" else m)
        m = m by
    exact haux s.data [] h
  intro cs
  induction cs with
  | nil => intro m _; rfl
  | cons c rest ih =>
    intro m hm
    have hc := hm c (List.mem_cons_self _ _)
    have hrest : ∀ c' ∈ rest, matchScript c'.toNat = none ∧ isLetter c' = false :=
      fun c' hc' => hm c' (List.mem_cons_of_mem _ hc')
    by_cases h0 : c.toNat = 0
    · simp only [List.foldl_cons, h0, if_pos rfl]
      exact ih m hrest
    · simp only [List.foldl_cons, if_neg h0, hc.1, hc.2, if_neg Bool.false_ne_true]
      exact ih m hrest

/-! ## Claim C10 -/

/-- C10: if no character of the text falls into any known script range and
none is alphabetic, `detectScript` returns exactly the fallback entry
`(Unknown, Zyyy, 100, text.length)` with `primaryScript = Unknown` and
`mixedScript = false` (and no `details`, since that early return ignores
the `detailed` flag). -/
theorem detectScript_unknown_fallback (isLetter : Char → Bool)
    (cfg : EffectiveConfig) (s : String) (detailed : Bool)
    (hlen : jsLength s ≤ cfg.maxTextLength)
    (hchars : ∀ c ∈ s.data, matchScript c.toNat = none ∧ isLetter c = false) :
    detectScript isLetter cfg (.jstr s) detailed =
      .ok { scripts := [⟨"Unknown", "Zyyy", 100, jsLength s⟩]
            primaryScript := "Unknown"
            mixedScript := false
            details := none } := by
  have hcounts := scriptCountsOf_eq_nil isLetter s hchars
  have hscripts : analyzeScripts isLetter s = [] := by
    simp [analyzeScripts, rawEntries, hcounts, stableSortDesc]
  simp [detectScript, validateInput_ok cfg s hlen, hscripts]

/-- Witness for C10: two interrobangs (U+203D: outside every range in the
table, not a letter). -/
theorem detectScript_unknown_fallback_witness :
    detectScript (fun _ => false) defaultConfig (.jstr "‽‽") false =
      .ok { scripts := [⟨"Unknown", "Zyyy", 100, 2⟩]
            primaryScript := "Unknown"
            mixedScript := false
            details := none } :=
  detectScript_unknown_fallback (fun _ => false) defaultConfig "‽‽" false
    (by decide) (by decide)

/-! ## Lemmas about the stable descending sort -/

theorem length_insertDesc (x : ScriptEntry) (l : List ScriptEntry) :
    (insertDesc x l).length = l.length + 1 := by
  induction l with
  | nil => rfl
  | cons y ys ih =>
    by_cases h : y.characterCount ≤ x.characterCount
    · simp [insertDesc, h]
    · simp [insertDesc, h, ih]

theorem length_stableSortDesc (l : List ScriptEntry) :
    (stableSortDesc l).length = l.length := by
  induction l with
  | nil => rfl
  | cons x xs ih => simp [stableSortDesc, length_insertDesc, ih]

theorem mem_insertDesc (a x : ScriptEntry) (l : List ScriptEntry) :
    a ∈ insertDesc x l ↔ a = x ∨ a ∈ l := by
  induction l with
  | nil => simp [insertDesc]
  | cons y ys ih =>
    by_cases h : y.characterCount ≤ x.characterCount
    · simp [insertDesc, h]
    · simp [insertDesc, h, ih]
      tauto

theorem mem_stableSortDesc (a : ScriptEntry) (l : List ScriptEntry) :
    a ∈ stableSortDesc l ↔ a ∈ l := by
  induction l with
  | nil => simp [stableSortDesc]
  | cons x xs ih => simp [stableSortDesc, mem_insertDesc, ih]

theorem pairwise_insertDesc (x : ScriptEntry) (l : List ScriptEntry)
    (hl : l.Pairwise (fun a b => b.characterCount ≤ a.characterCount)) :
    (insertDesc x l).Pairwise (fun a b => b.characterCount ≤ a.characterCount) := by
  induction l with
  | nil => simp [insertDesc]
  | cons y ys ih =>
    rcases List.pairwise_cons.mp hl with ⟨hy, hys⟩
    by_cases h : y.characterCount ≤ x.characterCount
    · simp only [insertDesc, if_pos h]
      refine List.pairwise_cons.mpr ⟨?_, hl⟩
      intro b hb
      rcases List.mem_cons.mp hb with rfl | hb'
      · exact h
      · exact le_trans (hy b hb') h
    · simp only [insertDesc, if_neg h]
      refine List.pairwise_cons.mpr ⟨?_, ih hys⟩
      intro b hb
      rcases (mem_insertDesc b x ys).mp hb with rfl | hb'
      · omega
      · exact hy b hb'

theorem pairwise_stableSortDesc (l : List ScriptEntry) :
    (stableSortDesc l).Pairwise (fun a b => b.characterCount ≤ a.characterCount) := by
  induction l with
  | nil => simp [stableSortDesc]
  | cons x xs ih => exact pairwise_insertDesc x (stableSortDesc xs) ih

theorem filter_insertDesc (x : ScriptEntry) (l : List ScriptEntry) (n : Nat) :
    (insertDesc x l).filter (fun e => e.characterCount == n) =
      (if x.characterCount = n then [x] else []) ++
        l.filter (fun e => e.characterCount == n) := by
  induction l with
  | nil =>
    by_cases hx : x.characterCount = n
    · simp [insertDesc, List.filter, beq_iff_eq, hx]
    · have hb : (x.characterCount == n) = false := by simp [hx]
      simp [insertDesc, List.filter, hb, hx]
  | cons y ys ih =>
    by_cases h : y.characterCount ≤ x.characterCount
    · simp only [insertDesc, if_pos h, List.filter_cons]
      by_cases hx : x.characterCount = n
      · simp [beq_iff_eq, hx]
      · simp [beq_iff_eq, hx]
    · simp only [insertDesc, if_neg h, List.filter_cons]
      by_cases hy : y.characterCount = n
      · have hx : ¬ x.characterCount = n := by omega
        simp [beq_iff_eq, hy, hx, ih]
      · simp [beq_iff_eq, hy, ih]

theorem filter_stableSortDesc (l : List ScriptEntry) (n : Nat) :
    (stableSortDesc l).filter (fun e => e.characterCount == n) =
      l.filter (fun e => e.characterCount == n) := by
  induction l with
  | nil => rfl
  | cons x xs ih =>
    by_cases hx : x.characterCount = n
    · simp [stableSortDesc, filter_insertDesc, hx, List.filter_cons, ih]
    · simp [stableSortDesc, filter_insertDesc, hx, List.filter_cons, ih]

/-! ## Lemmas about the counts map and the raw entries -/

theorem matchScript_name_ne_empty (cp : Nat) (nm : String)
    (h : matchScript cp = some nm) : nm ≠ "" := by
  unfold matchScript at h
  cases hf : scriptRanges.find? (fun r => decide (r.lo ≤ cp ∧ cp ≤ r.hi)) with
  | none => rw [hf] at h; cases h
  | some r =>
    rw [hf] at h
    have hr : r ∈ scriptRanges := List.mem_of_find?_eq_some hf
    have hnm : r.name = nm := by
      simpa using h
    have hall : ∀ x ∈ scriptRanges, x.name ≠ "" := by decide
    exact hnm ▸ hall r hr

theorem bump_pos_names (m : List (String × Nat)) (nm : String) (hnm : nm ≠ "")
    (hm : ∀ p ∈ m, 1 ≤ p.2 ∧ p.1 ≠ "") :
    ∀ p ∈ bump m nm, 1 ≤ p.2 ∧ p.1 ≠ "" := by
  induction m with
  | nil =>
    intro p hp
    simp [bump] at hp
    subst hp
    exact ⟨Nat.le_refl 1, hnm⟩
  | cons q rest ih =>
    obtain ⟨k, c⟩ := q
    intro p hp
    by_cases hk : k = nm
    · simp only [bump, if_pos hk] at hp
      rcases List.mem_cons.mp hp with rfl | hp'
      · have := hm (k, c) (List.mem_cons_self _ _)
        exact ⟨by omega, this.2⟩
      · exact hm p (List.mem_cons_of_mem _ hp')
    · simp only [bump, if_neg hk] at hp
      rcases List.mem_cons.mp hp with rfl | hp'
      · exact hm (k, c) (List.mem_cons_self _ _)
      · exact ih (fun q hq => hm q (List.mem_cons_of_mem _ hq)) p hp'

/-- Every entry of the counts map has a positive count and a nonempty
script name. -/
theorem scriptCountsOf_pos_names (isLetter : Char → Bool) (s : String) :
    ∀ p ∈ scriptCountsOf isLetter s, 1 ≤ p.2 ∧ p.1 ≠ "" := by
  unfold scriptCountsOf
  suffices haux : ∀ (cs : List Char) (m : List (String × Nat)),
      (∀ p ∈ m, 1 ≤ p.2 ∧ p.1 ≠ "") →
      ∀ p ∈ cs.foldl
        (fun m c =>
          let cp := c.toNat
          if cp = 0 then m
          else
            match matchScript cp with
            | some nm => bump m nm
            | none => if isLetter c then bump m "Other" else m)
        m, 1 ≤ p.2 ∧ p.1 ≠ "" by
    exact haux s.data [] (by intro p hp; cases hp)
  intro cs
  induction cs with
  | nil => intro m hm; exact hm
  | cons c rest ih =>
    intro m hm
    simp only [List.foldl_cons]
    by_cases h0 : c.toNat = 0
    · rw [if_pos h0]
      exact ih m hm
    · rw [if_neg h0]
      cases hms : matchScript c.toNat with
      | some nm =>
        exact ih (bump m nm)
          (bump_pos_names m nm (matchScript_name_ne_empty c.toNat nm hms) hm)
      | none =>
        by_cases hl : isLetter c
        · rw [if_pos hl]
          exact ih (bump m "Other") (bump_pos_names m "Other" (by decide) hm)
        · rw [if_neg hl]
          exact ih m hm

theorem count_le_totalClassified (isLetter : Char → Bool) (s : String)
    (p : String × Nat) (hp : p ∈ scriptCountsOf isLetter s) :
    p.2 ≤ totalClassified isLetter s :=
  List.single_le_sum (fun y _ => Nat.zero_le y) p.2
    (List.mem_map.mpr ⟨p, hp, rfl⟩)

theorem jsRoundPct_le_100 (c T : Nat) (h : c ≤ T) : jsRoundPct c T ≤ 100 := by
  unfold jsRoundPct
  rcases Nat.eq_zero_or_pos T with rfl | hT
  · interval_cases c
    simp
  · have h2T : 0 < 2 * T := by omega
    rw [Nat.div_le_iff_le_mul_add_pred h2T]
    omega

/-- Every raw entry comes from a counts-map entry, with its count, its
name, and its percentage computed from the count over the classified
total. -/
theorem rawEntries_shape (isLetter : Char → Bool) (s : String)
    (e : ScriptEntry) (he : e ∈ rawEntries isLetter s) :
    ∃ p ∈ scriptCountsOf isLetter s,
      e.name = p.1 ∧ e.characterCount = p.2 ∧
      e.percentage = jsRoundPct p.2 (totalClassified isLetter s) := by
  unfold rawEntries at he
  obtain ⟨p, hp, heq⟩ := List.mem_map.mp he
  exact ⟨p, hp, by rw [← heq], by rw [← heq], by rw [← heq]⟩

theorem rawEntries_name_ne_empty (isLetter : Char → Bool) (s : String)
    (e : ScriptEntry) (he : e ∈ rawEntries isLetter s) : e.name ≠ "" := by
  obtain ⟨p, hp, hn, _, _⟩ := rawEntries_shape isLetter s e he
  rw [hn]
  exact (scriptCountsOf_pos_names isLetter s p hp).2

theorem rawEntries_pct_le_100 (isLetter : Char → Bool) (s : String)
    (e : ScriptEntry) (he : e ∈ rawEntries isLetter s) : e.percentage ≤ 100 := by
  obtain ⟨p, hp, _, _, hpct⟩ := rawEntries_shape isLetter s e he
  rw [hpct]
  exact jsRoundPct_le_100 p.2 _ (count_le_totalClassified isLetter s p hp)

theorem rawEntries_pct_formula (isLetter : Char → Bool) (s : String)
    (e : ScriptEntry) (he : e ∈ rawEntries isLetter s) :
    e.percentage = jsRoundPct e.characterCount (totalClassified isLetter s) := by
  obtain ⟨p, _, _, hc, hpct⟩ := rawEntries_shape isLetter s e he
  rw [hpct, hc]

/-- Evaluation of `detectScript` on a valid string input. -/
theorem detectScript_eval (isLetter : Char → Bool) (cfg : EffectiveConfig)
    (s : String) (detailed : Bool) (hlen : jsLength s ≤ cfg.maxTextLength) :
    detectScript isLetter cfg (.jstr s) detailed =
      match analyzeScripts isLetter s with
      | [] =>
        .ok { scripts := [⟨"Unknown", "Zyyy", 100, jsLength s⟩]
              primaryScript := "Unknown"
              mixedScript := false
              details := none }
      | e0 :: tl =>
        .ok { scripts := e0 :: tl
              primaryScript := if e0.name = "" then "Unknown" else e0.name
              mixedScript := decide (1 < (e0 :: tl).length)
              details := if detailed then some (getCharacterDetails s) else none } := by
  unfold detectScript
  rw [validateInput_ok cfg s hlen]

/-- A `detectScript` call on an over-long string never succeeds. -/
theorem detectScript_length_of_ok (isLetter : Char → Bool)
    (cfg : EffectiveConfig) (s : String) (detailed : Bool)
    (res : ScriptDetectionResult)
    (hres : detectScript isLetter cfg (.jstr s) detailed = .ok res) :
    jsLength s ≤ cfg.maxTextLength := by
  by_contra hlt
  have herr : detectScript isLetter cfg (.jstr s) detailed =
      .error ⟨.TEXT_TOO_LONG, "Text exceeds maximum length"⟩ := by
    have h : jsLength s > cfg.maxTextLength := by omega
    have hvi : validateInput cfg (.jstr s) =
        .error ⟨.TEXT_TOO_LONG, "Text exceeds maximum length"⟩ := by
      simp [validateInput, h]
    unfold detectScript
    rw [hvi]
  rw [herr] at hres
  cases hres

/-! ## Claim C5 -/

/-- C5: every successful `detectScript` result satisfies the Script
Distribution invariant: `scripts` is sorted descending by
`characterCount` with ties stable in encounter order (for every count
value, the subsequence with that count equals the encounter-order raw
entry subsequence), `primaryScript` is the name of the head — a
max-`characterCount` entry, `mixedScript` is true iff more than one
distinct script was observed, and each percentage is an integer in 0..100
computed as the rounded share of that script's count over the classified
characters only (`totalClassified` sums exactly the counted — classified —
characters). -/
theorem detectScript_distribution_invariant (isLetter : Char → Bool)
    (cfg : EffectiveConfig) (s : String) (detailed : Bool)
    (res : ScriptDetectionResult)
    (hres : detectScript isLetter cfg (.jstr s) detailed = .ok res) :
    res.scripts.Pairwise (fun a b => b.characterCount ≤ a.characterCount) ∧
    (∃ hne : res.scripts ≠ [],
       res.primaryScript = (res.scripts.head hne).name ∧
       ∀ e ∈ res.scripts,
         e.characterCount ≤ (res.scripts.head hne).characterCount) ∧
    res.mixedScript = decide (1 < (rawEntries isLetter s).length) ∧
    (∀ e ∈ res.scripts, e.percentage ≤ 100) ∧
    (rawEntries isLetter s ≠ [] →
       (∀ n, res.scripts.filter (fun e => e.characterCount == n) =
             (rawEntries isLetter s).filter (fun e => e.characterCount == n)) ∧
       ∀ e ∈ res.scripts,
         e.percentage = jsRoundPct e.characterCount (totalClassified isLetter s)) := by
  have hlen := detectScript_length_of_ok isLetter cfg s detailed res hres
  rw [detectScript_eval isLetter cfg s detailed hlen] at hres
  · cases hscr : analyzeScripts isLetter s with
    | nil =>
      rw [hscr] at hres
      injection hres with hinj
      subst hinj
      have hraw : rawEntries isLetter s = [] := by
        have hlen := length_stableSortDesc (rawEntries isLetter s)
        rw [show stableSortDesc (rawEntries isLetter s) = [] from hscr] at hlen
        exact List.length_eq_zero.mp (by simpa using hlen.symm)
      refine ⟨by simp, ⟨by simp, rfl, ?_⟩, ?_, ?_, fun h => absurd hraw h⟩
      · intro e he
        simp only [List.mem_singleton] at he
        subst he
        exact Nat.le_refl _
      · rw [hraw]
        rfl
      · intro e he
        simp only [List.mem_singleton] at he
        subst he
        exact Nat.le_refl 100
    | cons e0 tl =>
      rw [hscr] at hres
      injection hres with hinj
      subst hinj
      have hmem : ∀ e ∈ e0 :: tl, e ∈ rawEntries isLetter s := by
        intro e he
        rw [← hscr] at he
        exact (mem_stableSortDesc e (rawEntries isLetter s)).mp he
      have hpw : (e0 :: tl).Pairwise
          (fun a b => b.characterCount ≤ a.characterCount) := by
        rw [← hscr]
        exact pairwise_stableSortDesc (rawEntries isLetter s)
      have hn0 : e0.name ≠ "" :=
        rawEntries_name_ne_empty isLetter s e0 (hmem e0 (List.mem_cons_self _ _))
      have hlen : (e0 :: tl).length = (rawEntries isLetter s).length := by
        rw [← hscr]
        exact length_stableSortDesc (rawEntries isLetter s)
      refine ⟨hpw, ⟨by simp, ?_, ?_⟩, ?_, ?_, fun _ => ⟨?_, ?_⟩⟩
      · show (if e0.name = "" then "Unknown" else e0.name) = e0.name
        rw [if_neg hn0]
      · intro e he
        rcases List.mem_cons.mp he with rfl | he'
        · exact Nat.le_refl _
        · exact (List.pairwise_cons.mp hpw).1 e he'
      · show decide (1 < (e0 :: tl).length) = _
        rw [hlen]
      · intro e he
        exact rawEntries_pct_le_100 isLetter s e (hmem e he)
      · intro n
        rw [← hscr]
        exact filter_stableSortDesc (rawEntries isLetter s) n
      · intro e he
        exact rawEntries_pct_formula isLetter s e (hmem e he)

/-- Witness for C5: `detectScript "Hello мир"` (Latin and Cyrillic,
counts 6 and 3 — the space is in the Latin range of the table). -/
theorem detectScript_distribution_invariant_witness :
    ∃ res, detectScript (fun c => c.isAlpha) defaultConfig
        (.jstr "Hello мир") false = .ok res ∧
      (res.scripts.Pairwise (fun a b => b.characterCount ≤ a.characterCount) ∧
       (∃ hne : res.scripts ≠ [],
          res.primaryScript = (res.scripts.head hne).name ∧
          ∀ e ∈ res.scripts,
            e.characterCount ≤ (res.scripts.head hne).characterCount) ∧
       res.mixedScript =
         decide (1 < (rawEntries (fun c => c.isAlpha) "Hello мир").length) ∧
       (∀ e ∈ res.scripts, e.percentage ≤ 100) ∧
       (rawEntries (fun c => c.isAlpha) "Hello мир" ≠ [] →
          (∀ n, res.scripts.filter (fun e => e.characterCount == n) =
                (rawEntries (fun c => c.isAlpha) "Hello мир").filter
                  (fun e => e.characterCount == n)) ∧
          ∀ e ∈ res.scripts,
            e.percentage = jsRoundPct e.characterCount
              (totalClassified (fun c => c.isAlpha) "Hello мир"))) :=
  ⟨⟨[⟨"Latin", "Latn", 67, 6⟩, ⟨"Cyrillic", "Cyrl", 33, 3⟩], "Latin", true, none⟩,
   rfl,
   detectScript_distribution_invariant (fun c => c.isAlpha) defaultConfig
     "Hello мир" false _ rfl⟩

/-! ## Claim C9 -/

theorem goInstances_some_mem (s0 : EffectiveConfig) (cs : List (Option UromanConfig)) :
    ∀ x ∈ goInstances (some s0) cs, x = s0 := by
  induction cs with
  | nil => intro x hx; cases hx
  | cons c rest ih =>
    intro x hx
    rcases List.mem_cons.mp hx with rfl | hx'
    · rfl
    · exact ih x hx'

/-- C9: `getInstance` is a process-wide singleton — every call in a
process returns the value created by the *first* call, built from the
first call's config (with constructor defaults), and any config passed to
a later call is silently ignored; consequently the Cloudflare adapter's
resource ceilings (`cacheSize` from `UROMAN_CACHE_SIZE`, text and batch
limits) take effect exactly when the adapter's `getInstance` call is the
first one in the process. -/
theorem getInstance_singleton :
    (∀ (c0 : Option UromanConfig) (cs : List (Option UromanConfig))
       (srv : EffectiveConfig),
       srv ∈ goInstances none (c0 :: cs) → srv = mkService (c0.getD {}))
    ∧
    (∀ (n : Nat) (cs : List (Option UromanConfig)) (srv : EffectiveConfig),
       srv ∈ goInstances none (some (cloudflareServiceConfig n) :: cs) →
       srv.cacheSize = n ∧ srv.maxTextLength = 10000 ∧ srv.maxBatchSize = 100) := by
  have hfirst : ∀ (c0 : Option UromanConfig) (cs : List (Option UromanConfig))
      (srv : EffectiveConfig),
      srv ∈ goInstances none (c0 :: cs) → srv = mkService (c0.getD {}) := by
    intro c0 cs srv hm
    have hshape : goInstances none (c0 :: cs) =
        mkService (c0.getD {}) :: goInstances (some (mkService (c0.getD {}))) cs := rfl
    rw [hshape] at hm
    rcases List.mem_cons.mp hm with rfl | hm'
    · rfl
    · exact goInstances_some_mem (mkService (c0.getD {})) cs srv hm'
  refine ⟨hfirst, ?_⟩
  intro n cs srv hm
  have h := hfirst (some (cloudflareServiceConfig n)) cs srv hm
  subst h
  exact ⟨rfl, rfl, rfl⟩

/-- Witness for C9: a default-config first call followed by an adapter
call whose ceilings are ignored; and an adapter-first process where the
ceilings do take effect. -/
theorem getInstance_singleton_witness :
    mkService {} = mkService ((none : Option UromanConfig).getD {}) ∧
    ((mkService (cloudflareServiceConfig 9)).cacheSize = 9 ∧
     (mkService (cloudflareServiceConfig 9)).maxTextLength = 10000 ∧
     (mkService (cloudflareServiceConfig 9)).maxBatchSize = 100) :=
  ⟨getInstance_singleton.1 none [some (cloudflareServiceConfig 9)] (mkService {})
     (by decide),
   getInstance_singleton.2 9 [] (mkService (cloudflareServiceConfig 9)) (by decide)⟩

/-! ## Claim C7 -/

/-- An initialization state is hot once the instance or a promise exists. -/
def initHot (s : InitState) : Prop := s.inst ≠ none ∨ s.prom ≠ .noneP

/-- The invariant of the initialization system: cold states have count
zero; hot states have count exactly one; a set instance means no pending
promise; every directly-returned handle is the stored instance. -/
def InitOK (s : InitState) : Prop :=
  ((s.initCount = 0 ∧ s.inst = none ∧ s.prom = .noneP) ∨
     (s.initCount = 1 ∧ initHot s)) ∧
  (∀ h : Nat, s.inst = some h → s.prom ≠ .pending) ∧
  (∀ h : Nat, .direct h ∈ s.results → s.inst = some h)

theorem initStep_ok (s : InitState) (e : InitEv) (hs : InitOK s) :
    InitOK (initStep s e) := by
  obtain ⟨h1, h2, h3⟩ := hs
  cases e with
  | enter =>
    cases hinst : s.inst with
    | some h0 =>
      refine ⟨?_, ?_, ?_⟩
      · rcases h1 with ⟨_, hi, _⟩ | ⟨hc, _⟩
        · rw [hinst] at hi; cases hi
        · exact Or.inr ⟨by simp [initStep, hinst, hc], by
            unfold initHot
            simp [initStep, hinst]⟩
      · intro h hh
        simp only [initStep, hinst] at hh ⊢
        exact h2 h (by rw [hinst, hh])
      · intro h hh
        simp only [initStep, hinst] at hh ⊢
        rcases List.mem_append.mp hh with hold | hnew
        · rw [← hinst]
          exact h3 h hold
        · simp only [List.mem_singleton] at hnew
          cases hnew
          rfl
    | none =>
      cases hprom : s.prom with
      | pending =>
        refine ⟨?_, ?_, ?_⟩
        · rcases h1 with ⟨_, _, hp⟩ | ⟨hc, _⟩
          · rw [hprom] at hp; cases hp
          · exact Or.inr ⟨by simp [initStep, hinst, hprom, hc], by
              unfold initHot
              simp [initStep, hinst, hprom]⟩
        · intro h hh
          simp only [initStep, hinst, hprom] at hh
          cases hh
        · intro h hh
          simp only [initStep, hinst, hprom] at hh ⊢
          rcases List.mem_append.mp hh with hold | hnew
          · exfalso
            have := h3 h hold
            rw [hinst] at this
            cases this
          · simp at hnew
      | rejected =>
        refine ⟨?_, ?_, ?_⟩
        · rcases h1 with ⟨_, _, hp⟩ | ⟨hc, _⟩
          · rw [hprom] at hp; cases hp
          · exact Or.inr ⟨by simp [initStep, hinst, hprom, hc], by
              unfold initHot
              simp [initStep, hinst, hprom]⟩
        · intro h hh
          simp only [initStep, hinst, hprom] at hh
          cases hh
        · intro h hh
          simp only [initStep, hinst, hprom] at hh ⊢
          rcases List.mem_append.mp hh with hold | hnew
          · exfalso
            have := h3 h hold
            rw [hinst] at this
            cases this
          · simp at hnew
      | noneP =>
        have hcold : s.initCount = 0 := by
          rcases h1 with ⟨hc, _, _⟩ | ⟨_, hhot⟩
          · exact hc
          · exfalso
            unfold initHot at hhot
            rcases hhot with h | h
            · exact h hinst
            · exact h hprom
        refine ⟨?_, ?_, ?_⟩
        · exact Or.inr ⟨by simp [initStep, hinst, hprom, hcold], by
            unfold initHot
            simp [initStep, hinst, hprom]⟩
        · intro h hh
          simp only [initStep, hinst, hprom] at hh
          cases hh
        · intro h hh
          simp only [initStep, hinst, hprom] at hh ⊢
          rcases List.mem_append.mp hh with hold | hnew
          · exfalso
            have := h3 h hold
            rw [hinst] at this
            cases this
          · simp at hnew
  | completeOk h0 =>
    by_cases hp : s.prom = .pending
    · refine ⟨?_, ?_, ?_⟩
      · refine Or.inr ⟨?_, ?_⟩
        · rcases h1 with ⟨_, _, hpn⟩ | ⟨hc, _⟩
          · rw [hp] at hpn; cases hpn
          · simp [initStep, hp, hc]
        · unfold initHot
          simp [initStep, hp]
      · intro h hh
        simp [initStep, hp]
      · intro h hh
        simp only [initStep, hp, if_pos] at hh ⊢
        exfalso
        have hi := h3 h hh
        exact h2 h hi hp
    · have hid : initStep s (.completeOk h0) = s := by
        simp [initStep, hp]
      rw [hid]
      exact ⟨h1, h2, h3⟩
  | completeFail =>
    by_cases hp : s.prom = .pending
    · refine ⟨?_, ?_, ?_⟩
      · refine Or.inr ⟨?_, ?_⟩
        · rcases h1 with ⟨_, _, hpn⟩ | ⟨hc, _⟩
          · rw [hp] at hpn; cases hpn
          · simp [initStep, hp, hc]
        · unfold initHot
          simp [initStep, hp]
      · intro h hh
        simp only [initStep, hp, if_pos] at hh ⊢
        simp
      · intro h hh
        simp only [initStep, hp, if_pos] at hh ⊢
        exact h3 h hh
    · have hid : initStep s .completeFail = s := by
        simp [initStep, hp]
      rw [hid]
      exact ⟨h1, h2, h3⟩

theorem foldl_initStep_ok (evs : List InitEv) :
    ∀ s : InitState, InitOK s → InitOK (evs.foldl initStep s) := by
  induction evs with
  | nil => intro s hs; exact hs
  | cons e rest ih =>
    intro s hs
    exact ih (initStep s e) (initStep_ok s e hs)

theorem initStep_preserves_hot (s : InitState) (e : InitEv) (h : initHot s) :
    initHot (initStep s e) := by
  unfold initHot at h ⊢
  cases e with
  | enter =>
    cases hinst : s.inst with
    | some h0 => simp [initStep, hinst]
    | none =>
      cases hprom : s.prom with
      | pending => simp [initStep, hinst, hprom]
      | rejected => simp [initStep, hinst, hprom]
      | noneP => simp [initStep, hinst, hprom]
  | completeOk h0 =>
    by_cases hp : s.prom = .pending
    · simp [initStep, hp]
    · simp only [initStep, if_neg hp]
      exact h
  | completeFail =>
    by_cases hp : s.prom = .pending
    · simp [initStep, hp]
    · simp only [initStep, if_neg hp]
      exact h

theorem initStep_enter_hot (s : InitState) : initHot (initStep s .enter) := by
  unfold initHot
  cases hinst : s.inst with
  | some h0 => simp [initStep, hinst]
  | none =>
    cases hprom : s.prom with
    | pending => simp [initStep, hinst, hprom]
    | rejected => simp [initStep, hinst, hprom]
    | noneP => simp [initStep, hinst, hprom]

theorem foldl_initStep_hot (evs : List InitEv) :
    ∀ s : InitState, initHot s → initHot (evs.foldl initStep s) := by
  induction evs with
  | nil => intro s hs; exact hs
  | cons e rest ih =>
    intro s hs
    exact ih (initStep s e) (initStep_preserves_hot s e hs)

theorem hot_after_enter (evs : List InitEv) :
    ∀ s : InitState, .enter ∈ evs → initHot (evs.foldl initStep s) := by
  induction evs with
  | nil => intro s hs; cases hs
  | cons e rest ih =>
    intro s hs
    rcases List.mem_cons.mp hs with rfl | hs'
    · exact foldl_initStep_hot rest (initStep s .enter) (initStep_enter_hot s)
    · exact ih (initStep s e) hs'

/-- C7: for every interleaving of logical `getUroman` callers and promise
settlements from the cold state in which at least one caller enters,
exactly one physical engine initialization is started (`initCount = 1` —
the in-flight promise is memoized, so late arrivals share it instead of
starting another); moreover any two callers that received a handle
directly received the same one, namely the stored instance. -/
theorem getUroman_single_initialization (evs : List InitEv)
    (hin : .enter ∈ evs) :
    (runInit evs).initCount = 1 ∧
    (∀ h1 h2 : Nat, .direct h1 ∈ (runInit evs).results →
       .direct h2 ∈ (runInit evs).results → h1 = h2) ∧
    (∀ h : Nat, .direct h ∈ (runInit evs).results →
       (runInit evs).inst = some h) := by
  have hcold : InitOK {} := by
    refine ⟨Or.inl ⟨rfl, rfl, rfl⟩, ?_, ?_⟩
    · intro h hh
      simp at hh
    · intro h hh
      simp at hh
  have hok : InitOK (runInit evs) := foldl_initStep_ok evs {} hcold
  have hhot : initHot (runInit evs) := hot_after_enter evs {} hin
  obtain ⟨h1, _, h3⟩ := hok
  refine ⟨?_, ?_, h3⟩
  · rcases h1 with ⟨_, hi, hp⟩ | ⟨hc, _⟩
    · exfalso
      unfold initHot at hhot
      rcases hhot with h | h
      · exact h hi
      · exact h hp
    · exact hc
  · intro ha hb hma hmb
    have ea := h3 ha hma
    have eb := h3 hb hmb
    rw [ea] at eb
    exact Option.some.inj eb

/-- Witness for C7: three racing callers around one successful completion
trigger exactly one initialization. -/
theorem getUroman_single_initialization_witness :
    (runInit [.enter, .enter, .completeOk 5, .enter]).initCount = 1 ∧
    (∀ h1 h2 : Nat,
       .direct h1 ∈ (runInit [.enter, .enter, .completeOk 5, .enter]).results →
       .direct h2 ∈ (runInit [.enter, .enter, .completeOk 5, .enter]).results →
       h1 = h2) ∧
    (∀ h : Nat,
       .direct h ∈ (runInit [.enter, .enter, .completeOk 5, .enter]).results →
       (runInit [.enter, .enter, .completeOk 5, .enter]).inst = some h) :=
  getUroman_single_initialization [.enter, .enter, .completeOk 5, .enter] (by decide)

end UromanMCP
